import Mathlib

/-!
# Verification of the AI Chat Assistant core

A shallow embedding, in Lean 4, of the AI-model strategy / fallback engine,
the conversation-style engine with response post-processing, and the
feedback-driven model scorer of the AI Chat Assistant repository, together
with proofs of the behavioural properties stated in its specification.

Modelling conventions:
* Python `float` arithmetic is modelled by exact rational arithmetic (`ℚ`);
  Python `int` by `Int`.  `time.time()` values are passed in explicitly as a
  rational `now` parameter.
* Python `str` values that the post-processing pipeline computes on are
  modelled as `List Char`; fixed identifier-like strings (backend names,
  feedback kinds, roles) are modelled as `String`.
* Python dictionaries (which iterate in insertion order) are modelled as
  association lists `List (String × α)` whose keys are unique; lookup takes
  the first matching entry, and mutating an entry updates it in place.
* Methods that mutate `self` are modelled as functions returning the updated
  state; the abstract `generate_response` / `validate_configuration` methods
  of the adapter base class are modelled as oracle fields of the adapter
  record (`genResult`, with `none` standing for a raised exception, and
  `validOk`/`validMsg`).
-/

namespace AIChat

/-! ## Data model: `models/ai_strategy.py` -/

/-- Class `ModelConfig` from `models/ai_strategy.py`: static configuration of one
backend.  Immutable after construction. -/
structure ModelConfig where
  name : String
  model_id : String
  description : String
  max_tokens : Int := 2048
  temperature : ℚ := 7/10
  free_tier_limit : Int := 1000
  supports_streaming : Bool := false
  requires_api_key : Bool := true
  deriving Repr, DecidableEq

/-- Class `ModelResponse` from `models/ai_strategy.py`: the standardized response
format of every backend. -/
structure ModelResponse where
  success : Bool
  content : List Char
  response_time : ℚ
  model_used : String
  tokens_used : Int := 0
  error_message : Option String := none
  finish_reason : Option String := none
  provider : Option String := none
  deriving Repr, DecidableEq

/-- One AI backend adapter (`AIModelStrategy`): its configuration, its
mutable usage state (`usage_count`, `last_request_time`,
`rate_limit_remaining`) and oracles for the abstract methods implemented by
each provider (`validate_configuration` always returns the pair
`(validOk, validMsg)`; `generate_response` returns `genResult`, where `none`
models the call raising an exception). -/
structure Backend where
  config : ModelConfig
  usage_count : Int
  last_request_time : ℚ
  rate_limit_remaining : Int
  validOk : Bool
  validMsg : String
  genResult : Option ModelResponse
  deriving Repr, DecidableEq

/-- State update performed by `AIModelStrategy.check_rate_limit`: if more
than 24 hours (86400 s) have passed since `last_request_time`, restore
`rate_limit_remaining` to `config.free_tier_limit` and zero `usage_count`. -/
def checkRateLimitState (b : Backend) (now : ℚ) : Backend :=
  if now - b.last_request_time > 86400 then
    { b with rate_limit_remaining := b.config.free_tier_limit, usage_count := 0 }
  else b

/-- Method `AIModelStrategy.check_rate_limit` (lines 117–131): lazily reset the
daily counter, then report whether any quota remains. -/
def checkRateLimit (b : Backend) (now : ℚ) : Bool × Backend :=
  let b' := checkRateLimitState b now
  (decide (b'.rate_limit_remaining > 0), b')

/-- Method `AIModelStrategy.update_usage` (lines 133–145): bump `usage_count`,
decrement `rate_limit_remaining`, record the request time.  The
`tokens_used` argument is accepted but not used by the accounting. -/
def updateUsage (b : Backend) (tokens_used : Int) (now : ℚ) : Backend :=
  let _ := tokens_used
  { b with usage_count := b.usage_count + 1,
           rate_limit_remaining := b.rate_limit_remaining - 1,
           last_request_time := now }

/-! ## Feedback scorer: `database/feedback_manager.py` -/

/-- The mutable aggregate columns of one `model_performance` row for a
(backend, style) pair. -/
structure PerfAgg where
  avg_rating : ℚ
  total_feedback_count : Int
  positive_feedback_count : Int
  negative_feedback_count : Int
  deriving Repr, DecidableEq

/-- Method `FeedbackManager._calculate_performance_score` (lines 229–244):
weighted blend of rating quality (60%), positivity ratio (30%) and an
engagement term saturating at 100 feedback events (10%). -/
def calculatePerformanceScore (avg_rating : ℚ) (positive_count : Int)
    (negative_count : Int) (total_count : Int) : ℚ :=
  let _ := negative_count
  if total_count = 0 then 0
  else
    let rating_score := (avg_rating / 5) * (6/10)
    let positive_ratio :=
      if total_count > 0 then (positive_count : ℚ) / (total_count : ℚ) else 0
    let positive_score := positive_ratio * (3/10)
    let engagement_score := min ((total_count : ℚ) / 100) 1 * (1/10)
    rating_score + positive_score + engagement_score

/-- Python truthiness of the optional `rating` argument: present and
non-zero. -/
def ratingTruthy : Option Int → Bool
  | none => false
  | some r => decide (r ≠ 0)

/-- The existing-row branch of `FeedbackManager._update_model_performance`
(lines 173–201): given the current aggregates of the (backend, style) row,
a feedback kind and an optional rating, produce the updated aggregates and
the recomputed `performance_score`. -/
def updateModelPerformanceExisting (cur : PerfAgg) (feedback_type : String)
    (rating : Option Int) : PerfAgg × ℚ :=
  let new_total := cur.total_feedback_count + 1
  let new_avg_rating :=
    if ratingTruthy rating ∧ feedback_type = "rating" then
      (cur.avg_rating * (cur.total_feedback_count : ℚ) + ((rating.getD 0 : Int) : ℚ))
        / (new_total : ℚ)
    else cur.avg_rating
  let new_positive :=
    cur.positive_feedback_count + (if feedback_type = "thumbs_up" then 1 else 0)
  let new_negative :=
    cur.negative_feedback_count + (if feedback_type = "thumbs_down" then 1 else 0)
  let score := calculatePerformanceScore new_avg_rating new_positive new_negative new_total
  (⟨new_avg_rating, new_total, new_positive, new_negative⟩, score)

/-- The new-row branch of `FeedbackManager._update_model_performance`
(lines 203–219): the first feedback event for a (backend, style) pair
creates the row with `total_feedback_count = 1`. -/
def createModelPerformance (feedback_type : String) (rating : Option Int) :
    PerfAgg × ℚ :=
  let initial_rating : ℚ :=
    if ratingTruthy rating ∧ feedback_type = "rating" then ((rating.getD 0 : Int) : ℚ)
    else 3
  let positive_count : Int := if feedback_type = "thumbs_up" then 1 else 0
  let negative_count : Int := if feedback_type = "thumbs_down" then 1 else 0
  let score := calculatePerformanceScore initial_rating positive_count negative_count 1
  (⟨initial_rating, 1, positive_count, negative_count⟩, score)

/-! ## Backend registry: `ModelManager` in `models/ai_strategy.py` -/

/-- Class `ModelManager` state: the registration dictionary (insertion ordered,
unique keys) and the designated default backend name (`None` before the
first registration). -/
structure ModelManager where
  models : List (String × Backend)
  default_model : Option String
  deriving Repr, DecidableEq

/-- Python `dict` lookup `self.models.get(name)`: first entry with the key. -/
def dictGet (m : List (String × Backend)) (k : String) : Option Backend :=
  (m.find? (fun p => p.1 = k)).map (·.2)

/-- In-place mutation of the adapter object stored under key `k` (Python
object mutation is visible through the dictionary). -/
def dictSet (m : List (String × Backend)) (k : String) (b : Backend) :
    List (String × Backend) :=
  m.map (fun p => if p.1 = k then (p.1, b) else p)

/-- Method `ModelManager.get_available_models` (lines 263–275): scan the registry
in registration order; a backend is available when `validate_configuration`
succeeds and `check_rate_limit` is true.  `check_rate_limit` is only called
when validation succeeded (Python `and` short-circuits) and may reset the
adapter's daily counter, so the scan returns the updated registry too. -/
def availScan (now : ℚ) : List (String × Backend) → List String × List (String × Backend)
  | [] => ([], [])
  | (k, b) :: rest =>
    if b.validOk then
      let b' := checkRateLimitState b now
      let o := availScan now rest
      (if 0 < b'.rate_limit_remaining then k :: o.1 else o.1, (k, b') :: o.2)
    else
      let o := availScan now rest
      (o.1, (k, b) :: o.2)

/-- The incremental duplicate-avoiding append used when building
`models_to_try` (`if model_name not in models_to_try: append`). -/
def addNew (acc : List String) : List String → List String
  | [] => acc
  | n :: rest => if n ∈ acc then addNew acc rest else addNew (acc ++ [n]) rest

/-- Construction of `models_to_try` in `generate_with_fallback`
(lines 292–304): the preferred backend if truthy and registered, then the
default if truthy and not already listed, then every currently-available
backend not already listed.  Returns the updated registry (the availability
scan may reset daily counters). -/
def modelsToTry (mgr : ModelManager) (preferred : Option String) (now : ℚ) :
    List String × ModelManager :=
  let l1 : List String :=
    match preferred with
    | some p => if p ≠ "" ∧ (dictGet mgr.models p).isSome then [p] else []
    | none => []
  let l2 : List String :=
    match mgr.default_model with
    | some d => if d ≠ "" ∧ d ∉ l1 then l1 ++ [d] else l1
    | none => l1
  let o := availScan now mgr.models
  (addNew l2 o.1, { mgr with models := o.2 })

/-- Events of the fallback loop, used to state which backends were skipped
and which had their `generate_response` invoked. -/
inductive FbEvent where
  | skipMissing (name : String)
  | skipInvalid (name : String)
  | skipRateLimited (name : String)
  | invoked (name : String) (success : Bool)
  deriving Repr, DecidableEq

/-- The backend name an event concerns. -/
def FbEvent.name : FbEvent → String
  | .skipMissing n => n
  | .skipInvalid n => n
  | .skipRateLimited n => n
  | .invoked n _ => n

/-- The `for model_name in models_to_try` loop of `generate_with_fallback`
(lines 307–333), instrumented with an event trace: skip missing
registrations, skip backends failing `validate_configuration`, skip
backends whose `check_rate_limit` is false (the check may reset the daily
counter, hence the registry is threaded), otherwise invoke
`generate_response`; return at the first successful response, treat an
exception (`genResult = none`) like a failure and continue. -/
def tryModelsLoop (now : ℚ) :
    List String → List (String × Backend) →
      List FbEvent × Option ModelResponse × List (String × Backend)
  | [], models => ([], none, models)
  | n :: rest, models =>
    match dictGet models n with
    | none =>
      let o := tryModelsLoop now rest models
      (.skipMissing n :: o.1, o.2)
    | some b =>
      if b.validOk then
        let b' := checkRateLimitState b now
        let models' := dictSet models n b'
        if 0 < b'.rate_limit_remaining then
          match b'.genResult with
          | some resp =>
            if resp.success then ([.invoked n true], some resp, models')
            else
              let o := tryModelsLoop now rest models'
              (.invoked n false :: o.1, o.2)
          | none =>
            let o := tryModelsLoop now rest models'
            (.invoked n false :: o.1, o.2)
        else
          let o := tryModelsLoop now rest models'
          (.skipRateLimited n :: o.1, o.2)
      else
        let o := tryModelsLoop now rest models
        (.skipInvalid n :: o.1, o.2)

/-- The terminal failure response of `generate_with_fallback`
(lines 336–342). -/
def allFailedResponse : ModelResponse :=
  { success := false, content := [], response_time := 0, model_used := "none",
    error_message := some "All available AI models failed or are rate limited" }

/-- Method `ModelManager.generate_with_fallback` (lines 277–342), instrumented
with the loop's event trace. -/
def generateWithFallbackTr (mgr : ModelManager) (preferred : Option String)
    (now : ℚ) : List FbEvent × ModelResponse × ModelManager :=
  let p := modelsToTry mgr preferred now
  let o := tryModelsLoop now p.1 p.2.models
  (o.1, o.2.1.getD allFailedResponse, { p.2 with models := o.2.2 })

/-- Method `ModelManager.generate_with_fallback`: the returned response and
the updated manager state. -/
def generateWithFallback (mgr : ModelManager) (preferred : Option String)
    (now : ℚ) : ModelResponse × ModelManager :=
  ((generateWithFallbackTr mgr preferred now).2.1,
   (generateWithFallbackTr mgr preferred now).2.2)

/-! ### Specification-side description of the fallback algorithm

The following definitions are written from the specification's words, for
comparison with the source-derived `generateWithFallback` above: the
candidate order and every rate-limit test are evaluated against the
*initial* registry state, with no state threading. -/

/-- Spec-side `check_rate_limit` outcome, read off the initial adapter
state: after the (lazy) daily reset, is any quota left? -/
def specCheckBool (b : Backend) (now : ℚ) : Bool :=
  decide (0 < (checkRateLimitState b now).rate_limit_remaining)

/-- Spec-side list of currently-available backends, in registration order:
those that pass validation and whose rate limit check is true. -/
def specAvailable (mgr : ModelManager) (now : ℚ) : List String :=
  (mgr.models.filter (fun p => p.2.validOk && specCheckBool p.2 now)).map (·.1)

/-- Spec-side candidate order: the preferred backend (if registered) first,
then the default (if not already included), then all other
currently-available backends in registration order. -/
def specCandidateOrder (mgr : ModelManager) (preferred : Option String)
    (now : ℚ) : List String :=
  let l1 : List String :=
    match preferred with
    | some p => if p ≠ "" ∧ (dictGet mgr.models p).isSome then [p] else []
    | none => []
  let l2 : List String :=
    match mgr.default_model with
    | some d => if d ≠ "" ∧ d ∉ l1 then l1 ++ [d] else l1
    | none => l1
  l2 ++ (specAvailable mgr now).filter (· ∉ l2)

/-- Spec-side trial loop: try each candidate in turn, skipping any that
fails validation or whose rate-limit check is false, and stop at the first
successful result.  All tests are against the initial registry. -/
def specFirstSuccess (models : List (String × Backend)) (now : ℚ) :
    List String → Option ModelResponse
  | [] => none
  | n :: rest =>
    match dictGet models n with
    | none => specFirstSuccess models now rest
    | some b =>
      if b.validOk && specCheckBool b now then
        match b.genResult with
        | some resp =>
          if resp.success then some resp else specFirstSuccess models now rest
        | none => specFirstSuccess models now rest
      else specFirstSuccess models now rest

/-- Spec-side fallback result: the first success among the candidates, or
the terminal failure naming no backend. -/
def specFallback (mgr : ModelManager) (preferred : Option String) (now : ℚ) :
    ModelResponse :=
  (specFirstSuccess mgr.models now (specCandidateOrder mgr preferred now)).getD
    allFailedResponse

/-! ## Conversation styles: `services/advanced_ai_service.py` -/

/-- The fixed enumeration of conversation styles. -/
inductive ConversationStyle where
  | friendly
  | professional
  | creative
  | analytical
  | casual
  | helpful
  deriving Repr, DecidableEq

/-- The `.value` string of each enum member. -/
def ConversationStyle.value : ConversationStyle → String
  | .friendly => "friendly"
  | .professional => "professional"
  | .creative => "creative"
  | .analytical => "analytical"
  | .casual => "casual"
  | .helpful => "helpful"

/-- The `prompt_prefix` entry of each style's configuration record
(`_initialize_conversation_styles`, lines 78–123). -/
def stylePromptPrefix : ConversationStyle → String
  | .friendly => "You are a friendly and warm AI assistant. Be encouraging, use a conversational tone, and show empathy. Use casual language while remaining helpful."
  | .professional => "You are a professional AI assistant. Provide clear, concise, and accurate responses. Use formal language and focus on efficiency and precision."
  | .creative => "You are a creative AI assistant. Think outside the box, offer innovative ideas, and inspire creativity. Use vivid language and encourage exploration of new possibilities."
  | .analytical => "You are an analytical AI assistant. Provide logical, well-reasoned responses. Break down complex problems, use data when possible, and explain your reasoning step by step."
  | .casual => "You are a casual AI assistant. Keep things relaxed and informal. Use everyday language, be conversational, and don\x27t be afraid to use humor when appropriate."
  | .helpful => "You are a helpful AI assistant focused on providing practical solutions. Always try to be as useful as possible, offer concrete suggestions, and go the extra mile to help."

/-- The `temperature` entry of each style's configuration record. -/
def styleTemperature : ConversationStyle → ℚ
  | .friendly => 8/10
  | .professional => 6/10
  | .creative => 9/10
  | .analytical => 5/10
  | .casual => 7/10
  | .helpful => 7/10

/-- One conversation turn (`{"role": ..., "content": ...}`). -/
structure ChatMsg where
  role : String
  content : String
  deriving Repr, DecidableEq

/-- Method `AdvancedAIService._apply_conversation_style` (lines 223–249): an empty
history is returned as is; a history with at most one turn gets the style's
system prompt prepended; longer histories pass through unchanged. -/
def applyConversationStyle (style : ConversationStyle)
    (messages : List ChatMsg) : List ChatMsg :=
  if messages = [] then messages
  else if messages.length ≤ 1 then
    ⟨"system", stylePromptPrefix style⟩ :: messages
  else messages

/-! ## Response post-processing: `services/advanced_ai_service.py`

The post-processing pipeline computes on the characters of the response, so
here Python strings are `List Char`. -/

/-- The ASCII whitespace characters stripped by Python's `str.strip()`. -/
def isPySpace (c : Char) : Bool :=
  c = ' ' ∨ c = '\t' ∨ c = '\n' ∨ c = '\r' ∨ c = '\x0b' ∨ c = '\x0c'

/-- Remove leading whitespace. -/
def pyLStrip : List Char → List Char
  | [] => []
  | c :: cs => if isPySpace c then pyLStrip cs else c :: cs

/-- Remove trailing whitespace. -/
def pyRStrip (l : List Char) : List Char :=
  (pyLStrip l.reverse).reverse

/-- Python `str.strip()`. -/
def pyStrip (l : List Char) : List Char :=
  pyRStrip (pyLStrip l)

/-- Python `content.split(sep)` for a one-character separator: split at
every occurrence, keeping empty parts (`"".split('.') == [""]`). -/
def pySplit (sep : Char) : List Char → List (List Char)
  | [] => [[]]
  | c :: cs =>
    if c = sep then [] :: pySplit sep cs
    else
      match pySplit sep cs with
      | [] => [[c]]
      | h :: t => (c :: h) :: t

/-- Python `str.lower()` (ASCII model). -/
def pyLower (l : List Char) : List Char :=
  l.map Char.toLower

/-- Python `sep.join(parts)`. -/
def pyJoin (sep : List Char) : List (List Char) → List Char
  | [] => []
  | [x] => x
  | x :: xs => x ++ sep ++ pyJoin sep xs

/-- The accumulation loop of `_improve_response_quality` (lines 346–351):
keep a stripped sentence when it is non-empty and its lowercase form is not
a substring of an already-kept sentence. -/
def dedupeSentences : List (List Char) → List (List Char) → List (List Char)
  | [], acc => acc
  | s :: rest, acc =>
    let s' := pyStrip s
    if s' ≠ [] ∧ ∀ e ∈ acc, ¬ pyLower s' <:+: pyLower e then
      dedupeSentences rest (acc ++ [s'])
    else dedupeSentences rest acc

/-- Method `AdvancedAIService._improve_response_quality` (lines 341–359): split on
periods, drop empty and repeated sentences, rejoin with `". "`, and append
a final period when the result does not already end with terminal
punctuation. -/
def improveResponseQuality (content : List Char) : List Char :=
  let sentences := pySplit '.' content
  let improved := pyJoin ['.', ' '] (dedupeSentences sentences [])
  if improved ≠ [] ∧ improved.getLast? ∉ [some '.', some '!', some '?'] then
    improved ++ ['.']
  else improved

/-- Python `str.replace(pat, rep)`: replace all non-overlapping occurrences
left to right (`pat` non-empty for every call site in this code). -/
def pyReplace (pat rep : List Char) : List Char → List Char
  | [] => []
  | c :: cs =>
    if h : pat ≠ [] ∧ pat <+: (c :: cs) then
      rep ++ pyReplace pat rep ((c :: cs).drop pat.length)
    else c :: pyReplace pat rep cs
termination_by s => s.length
decreasing_by
  · simp only [List.length_drop]
    have : 1 ≤ pat.length := by
      cases pat with
      | nil => exact absurd rfl h.1
      | cons x xs => simp
    simp only [List.length_cons]
    omega
  · simp

/-- Method `AdvancedAIService._ensure_professional_tone` (lines 293–307): replace
a fixed set of casual words with formal equivalents. -/
def ensureProfessionalTone (content : List Char) : List Char :=
  pyReplace "sorta".toList "somewhat".toList
    (pyReplace "kinda".toList "somewhat".toList
      (pyReplace "wanna".toList "want to".toList
        (pyReplace "gonna".toList "going to".toList
          (pyReplace "yeah".toList "yes".toList content))))

/-- The candidate closers of `_add_friendly_touches` (lines 315–320). -/
def friendlyAdditions : List (List Char) :=
  ["I hope this helps!".toList,
   "Feel free to ask if you need more clarification!".toList,
   "I\x27m here to help!".toList,
   "Let me know if you have other questions!".toList]

/-- The trigger phrases whose presence suppresses a friendly closer. -/
def friendlyTriggers : List (List Char) :=
  ["hope".toList, "feel free".toList, "let me know".toList, "happy to".toList]

/-- Method `AdvancedAIService._add_friendly_touches` (lines 309–329): when the
response is longer than 50 characters and contains none of the trigger
phrases, append one closer.  `random.choice` is modelled by the explicit
index `rnd`. -/
def addFriendlyTouches (content : List Char) (rnd : Nat) : List Char :=
  if content = [] then content
  else if 50 < content.length ∧
      ∀ p ∈ friendlyTriggers, ¬ p <:+: pyLower content then
    content ++ [' '] ++ (friendlyAdditions.getD (rnd % 4) [])
  else content

/-- Method `AdvancedAIService._enhance_creativity` (lines 331–339): when the
response mentions neither "creative" nor "imagine" and is longer than 100
characters, append an invitation to explore further. -/
def enhanceCreativity (content : List Char) : List Char :=
  if ¬ "creative".toList <:+: pyLower content ∧
      ¬ "imagine".toList <:+: pyLower content then
    if 100 < content.length then
      content ++ " Feel free to explore creative possibilities with this!".toList
    else content
  else content

/-- The leaked-system-prompt removal of `_post_process_response`
(lines 271–273): drop the first line and strip
(`'\n'.join(content.split('\n')[1:]).strip()`). -/
def dropFirstLine (content : List Char) : List Char :=
  pyStrip (pyJoin ['\n'] (pySplit '\n' content).tail)

/-- Method `AdvancedAIService._post_process_response` (lines 251–291): strip, drop
a leaked system prompt when the content starts with "You are", apply the
style-specific touch (professional / friendly / creative only), then the
general quality improvement. -/
def postProcessResponse (content : List Char) (style : ConversationStyle)
    (rnd : Nat) : List Char :=
  if content = [] then content
  else
    let c1 := pyStrip content
    let c2 := if "You are".toList <+: c1 then dropFirstLine c1 else c1
    let c3 :=
      match style with
      | .professional => ensureProfessionalTone c2
      | .friendly => addFriendlyTouches c2 rnd
      | .creative => enhanceCreativity c2
      | _ => c2
    improveResponseQuality c3

/-! ## Orchestrator: `AdvancedAIService.generate_response` -/

/-- The volatile `usage_analytics` counters of the service. -/
structure UsageAnalytics where
  total_requests : Int
  successful_requests : Int
  failed_requests : Int
  model_usage : List (String × Int)
  average_response_time : ℚ
  style_usage : List (String × Int)
  deriving Repr, DecidableEq

/-- Orchestrator state: the registry and the analytics counters. -/
structure AdvancedAIService where
  model_manager : ModelManager
  usage_analytics : UsageAnalytics
  deriving Repr, DecidableEq

/-- Python `d[k] = d.get(k, 0) + 1` on a Python dict of counters. -/
def bumpCounter (m : List (String × Int)) (k : String) : List (String × Int) :=
  if (m.find? (fun p => p.1 = k)).isSome then
    m.map (fun p => if p.1 = k then (p.1, p.2 + 1) else p)
  else m ++ [(k, 1)]

/-- Method `AdvancedAIService.generate_response` (lines 147–221).  `elapsed` is
the wall-clock duration `time.time() - start_time` observed at the end of
the call; `rnd` feeds the friendly-touch `random.choice`; `exn = some msg`
models an unexpected exception (with text `msg`) raised inside the `try`
block after the request counters were bumped — the code's `except` branch
then bumps the failure counter and returns an error response without ever
reaching the average-response-time update. -/
def advGenerateResponse (svc : AdvancedAIService) (messages : List ChatMsg)
    (style : ConversationStyle) (preferred : Option String)
    (now elapsed : ℚ) (rnd : Nat) (exn : Option String) :
    ModelResponse × AdvancedAIService :=
  let a := svc.usage_analytics
  let a1 := { a with total_requests := a.total_requests + 1,
                     style_usage := bumpCounter a.style_usage style.value }
  match exn with
  | some msg =>
    ({ success := false, content := [], response_time := elapsed,
       model_used := "none",
       error_message := some ("Advanced AI service error: " ++ msg) },
     { svc with usage_analytics :=
        { a1 with failed_requests := a1.failed_requests + 1 } })
  | none =>
    let _enhanced := applyConversationStyle style messages
    let (resp, mgr') := generateWithFallback svc.model_manager preferred now
    let (resp', a2) :=
      if resp.success then
        ({ resp with content := postProcessResponse resp.content style rnd },
         { a1 with successful_requests := a1.successful_requests + 1,
                   model_usage := bumpCounter a1.model_usage resp.model_used })
      else (resp, { a1 with failed_requests := a1.failed_requests + 1 })
    let a3 := { a2 with average_response_time :=
        (a1.average_response_time * ((a1.total_requests : ℚ) - 1) + elapsed)
          / (a1.total_requests : ℚ) }
    (resp', { svc with model_manager := mgr', usage_analytics := a3 })

/-! ## Auxiliary definitions used by the statements below -/

/-- Invariant maintained by the feedback-driven updates of a
`model_performance` row: the average rating stays in the 1–5 star scale's
range `[0, 5]`, the positive count is between `0` and the total count, and
a stored row has received at least one feedback event. -/
def PerfInv (p : PerfAgg) : Prop :=
  0 ≤ p.avg_rating ∧ p.avg_rating ≤ 5 ∧ 0 ≤ p.positive_feedback_count ∧
    p.positive_feedback_count ≤ p.total_feedback_count ∧
    1 ≤ p.total_feedback_count

/-- Relation between an adapter state and its possible in-place evolution
during one `generate_with_fallback` call: any number of `check_rate_limit`
calls at time `now` either leave the adapter unchanged or put it in the
once-reset state. -/
def RelB (now : ℚ) (b b' : Backend) : Prop :=
  b' = b ∨ b' = checkRateLimitState b now

/-- Pointwise lifting of `RelB` to the registry dictionary: same keys in
the same order, each adapter related by `RelB`. -/
def RelM (now : ℚ) (m m' : List (String × Backend)) : Prop :=
  List.Forall₂ (fun p q => p.1 = q.1 ∧ RelB now p.2 q.2) m m'

/-- Sample configuration used in concrete witnesses. -/
def exConfig (nm : String) : ModelConfig :=
  { name := nm, model_id := nm, description := "" }

/-- Sample successful response used in concrete witnesses. -/
def exResponse (nm : String) (s : Bool) : ModelResponse :=
  { success := s, content := [], response_time := 0, model_used := nm }

/-- Sample backend used in concrete witnesses. -/
def exBackend (nm : String) (ok : Bool) (rem : Int) (resp : Option ModelResponse) :
    Backend :=
  { config := exConfig nm, usage_count := 0, last_request_time := 0,
    rate_limit_remaining := rem, validOk := ok, validMsg := "",
    genResult := resp }

/-- Sample registry used in concrete witnesses: `a` is registered as the
default but fails validation, `b` is valid but out of quota, `c` is valid,
within quota and generates successfully. -/
def exMgr : ModelManager :=
  { models :=
      [("a", exBackend "a" false 5 (some (exResponse "a" true))),
       ("b", exBackend "b" true 0 (some (exResponse "b" true))),
       ("c", exBackend "c" true 5 (some (exResponse "c" true)))],
    default_model := some "a" }

/-- Sample analytics state used in concrete counterexamples/witnesses. -/
def exAnalytics : UsageAnalytics :=
  { total_requests := 0, successful_requests := 0, failed_requests := 0,
    model_usage := [], average_response_time := 5, style_usage := [] }

/-- Sample orchestrator state used in concrete counterexamples/witnesses. -/
def exService : AdvancedAIService :=
  { model_manager := { models := [], default_model := none },
    usage_analytics := exAnalytics }

/-! ## C10: `update_usage` quota accounting and frame -/

/-- **C10** — `update_usage(tokens_used)` always decrements
`rate_limit_remaining` by exactly 1 and increments `usage_count` by exactly
1; the `tokens_used` argument has no effect on quota accounting; and only
`usage_count`, `rate_limit_remaining` and `last_request_time` change — the
adapter's configuration (and its other fields) are untouched. -/
theorem updateUsage_quota_and_frame (b : Backend) (t₁ t₂ : Int) (now : ℚ) :
    updateUsage b t₁ now = updateUsage b t₂ now ∧
    (updateUsage b t₁ now).usage_count = b.usage_count + 1 ∧
    (updateUsage b t₁ now).rate_limit_remaining = b.rate_limit_remaining - 1 ∧
    (updateUsage b t₁ now).last_request_time = now ∧
    (updateUsage b t₁ now).config = b.config ∧
    (updateUsage b t₁ now).validOk = b.validOk ∧
    (updateUsage b t₁ now).validMsg = b.validMsg ∧
    (updateUsage b t₁ now).genResult = b.genResult :=
  ⟨rfl, rfl, rfl, rfl, rfl, rfl, rfl, rfl⟩

/-! ## C3: lazy daily reset in `check_rate_limit` -/

/-- **C3** — when more than 24 hours have elapsed since
`last_request_time`, `check_rate_limit` restores `rate_limit_remaining` to
the configured daily limit and zeroes `usage_count` before evaluating
whether a request is allowed (so it returns true iff the configured limit
is positive); within 24 hours it changes nothing; and the reset happens
exactly once: after a resetting check, further checks (at any time, absent
intervening requests) leave the state unchanged. -/
theorem checkRateLimit_lazy_daily_reset (b : Backend) (now : ℚ) :
    (now - b.last_request_time > 86400 →
      (checkRateLimit b now).2.rate_limit_remaining = b.config.free_tier_limit ∧
      (checkRateLimit b now).2.usage_count = 0 ∧
      (checkRateLimit b now).2.last_request_time = b.last_request_time ∧
      ((checkRateLimit b now).1 = true ↔ 0 < b.config.free_tier_limit)) ∧
    (¬ now - b.last_request_time > 86400 → (checkRateLimit b now).2 = b) ∧
    (now - b.last_request_time > 86400 → ∀ now₂ : ℚ,
      (checkRateLimit (checkRateLimit b now).2 now₂).2 = (checkRateLimit b now).2) := by
  refine ⟨fun h => ?_, fun h => ?_, fun h now₂ => ?_⟩
  · simp [checkRateLimit, checkRateLimitState, if_pos h, gt_iff_lt]
  · simp only [checkRateLimit, checkRateLimitState, if_neg h]
  · simp only [checkRateLimit, checkRateLimitState, if_pos h]
    by_cases h2 : now₂ - b.last_request_time > 86400
    · simp only [if_pos h2]
    · simp only [if_neg h2]

/-- Witness for C3 at a concrete adapter whose last request is 90000 s in
the past: the next check restores the daily limit (1000) and zeroes the
usage count. -/
theorem checkRateLimit_lazy_daily_reset_witness :
    (checkRateLimit (exBackend "a" true 0 none) 90000).2.rate_limit_remaining =
        (exBackend "a" true 0 none).config.free_tier_limit ∧
      (checkRateLimit (exBackend "a" true 0 none) 90000).2.usage_count = 0 := by
  have h := (checkRateLimit_lazy_daily_reset (exBackend "a" true 0 none) 90000).1
    (by norm_num [exBackend])
  exact ⟨h.1, h.2.1⟩

/-! ## C9: style injection at conversation start -/

/-- **C9** counterexample — on the empty message list, `apply_style` does
*not* prepend a system turn: it returns the empty list unchanged (the claim
states that every list with at most one turn, including the empty list,
gains a system turn). -/
theorem applyConversationStyle_empty_cex :
    applyConversationStyle ConversationStyle.friendly [] = [] ∧
    ([] : List ChatMsg) ≠
      [⟨"system", stylePromptPrefix ConversationStyle.friendly⟩] := by
  exact ⟨rfl, by simp⟩

/-- **C9** amended — `apply_style` prepends exactly one system turn
carrying the style's prompt prefix to every *non-empty* message list with
at most one turn (so a 1-turn list becomes a 2-turn list whose first turn
has role "system"); it returns the empty list and every list with more
than one turn unchanged. -/
theorem applyConversationStyle_spec (style : ConversationStyle)
    (messages : List ChatMsg) :
    (messages ≠ [] → messages.length ≤ 1 →
      applyConversationStyle style messages =
        ⟨"system", stylePromptPrefix style⟩ :: messages) ∧
    (1 < messages.length → applyConversationStyle style messages = messages) ∧
    applyConversationStyle style ([] : List ChatMsg) = [] := by
  refine ⟨fun h1 h2 => ?_, fun h => ?_, rfl⟩
  · simp only [applyConversationStyle, if_neg h1, if_pos h2]
  · have h1 : messages ≠ [] := by
      intro e; rw [e] at h; simp at h
    simp only [applyConversationStyle, if_neg h1]
    rw [if_neg (by omega)]

/-- Witness for the amended C9: applying the friendly style to a concrete
1-turn list yields the 2-turn list starting with the system prompt. -/
theorem applyConversationStyle_spec_witness :
    applyConversationStyle ConversationStyle.friendly [⟨"user", "hi"⟩] =
      [⟨"system", stylePromptPrefix ConversationStyle.friendly⟩,
       ⟨"user", "hi"⟩] := by
  exact (applyConversationStyle_spec ConversationStyle.friendly
    [⟨"user", "hi"⟩]).1 (by simp) (by simp)

/-! ## C8: the running-average response-time update -/

/-- **C8** counterexample — a `generate_response` call that ends in an
internal exception does *not* update the running average response time:
starting from a fresh service whose average is 5, a call that raises (with
elapsed time 1) increments the request counter to 1 but leaves the average
at 5, whereas the online-mean formula `(old_avg*(n-1) + elapsed)/n`
demands `(5*(1-1) + 1)/1 = 1`. -/
theorem advGenerateResponse_exception_cex :
    (advGenerateResponse exService [] ConversationStyle.helpful none 0 1 0
        (some "boom")).2.usage_analytics.total_requests = 1 ∧
    (advGenerateResponse exService [] ConversationStyle.helpful none 0 1 0
        (some "boom")).2.usage_analytics.average_response_time = 5 ∧
    ((5 : ℚ) ≠ (exAnalytics.average_response_time * ((1 : ℚ) - 1) + 1) / 1) := by
  refine ⟨rfl, rfl, by norm_num⟩

/-- **C8** amended — every call to the orchestrator's `generate_response`
that runs to completion (ending in a successful or a failed
`GenerationResult`, but not in an internal exception) updates the running
average response time by the online mean formula
`new_avg = (old_avg*(n-1) + elapsed)/n` where `n` is the total request
count so far; a call that ends in an internal exception increments the
total and failure counters but leaves the average unchanged. -/
theorem advGenerateResponse_avg_update (svc : AdvancedAIService)
    (messages : List ChatMsg) (style : ConversationStyle)
    (preferred : Option String) (now elapsed : ℚ) (rnd : Nat) :
    ((advGenerateResponse svc messages style preferred now elapsed rnd
        none).2.usage_analytics.average_response_time =
      (svc.usage_analytics.average_response_time *
          (((svc.usage_analytics.total_requests : ℚ) + 1) - 1) + elapsed) /
        ((svc.usage_analytics.total_requests : ℚ) + 1)) ∧
    ((advGenerateResponse svc messages style preferred now elapsed rnd
        none).2.usage_analytics.total_requests =
      svc.usage_analytics.total_requests + 1) ∧
    (∀ msg : String,
      (advGenerateResponse svc messages style preferred now elapsed rnd
          (some msg)).2.usage_analytics.average_response_time =
        svc.usage_analytics.average_response_time ∧
      (advGenerateResponse svc messages style preferred now elapsed rnd
          (some msg)).2.usage_analytics.total_requests =
        svc.usage_analytics.total_requests + 1 ∧
      (advGenerateResponse svc messages style preferred now elapsed rnd
          (some msg)).2.usage_analytics.failed_requests =
        svc.usage_analytics.failed_requests + 1) := by
  refine ⟨?_, ?_, fun msg => ⟨rfl, rfl, rfl⟩⟩
  · simp only [advGenerateResponse]
    push_cast
    ring
  · simp only [advGenerateResponse]
    split <;> rfl

/-! ## Feedback scorer: shared lemmas -/

/-- Closed form of `_calculate_performance_score` for a non-zero feedback
count. -/
theorem calculatePerformanceScore_eq (avg : ℚ) (pos neg total : Int)
    (h : total ≠ 0) :
    calculatePerformanceScore avg pos neg total =
      avg / 5 * (6/10) +
        (if total > 0 then (pos : ℚ) / (total : ℚ) else 0) * (3/10) +
        min ((total : ℚ) / 100) 1 * (1/10) := by
  simp only [calculatePerformanceScore, if_neg h]

/-- With a plausible aggregate (average in `[0,5]`, positive count between
0 and the total, at least one event) the composite score is in `[0,1]`. -/
theorem calculatePerformanceScore_bounds (avg : ℚ) (pos neg total : Int)
    (h0 : 0 ≤ avg) (h5 : avg ≤ 5) (hp : 0 ≤ pos) (hpt : pos ≤ total)
    (ht : 1 ≤ total) :
    0 ≤ calculatePerformanceScore avg pos neg total ∧
      calculatePerformanceScore avg pos neg total ≤ 1 := by
  rw [calculatePerformanceScore_eq avg pos neg total (by omega),
    if_pos (by omega : total > 0)]
  have htQ : (1 : ℚ) ≤ (total : ℚ) := by exact_mod_cast ht
  have hpQ : (0 : ℚ) ≤ (pos : ℚ) := by exact_mod_cast hp
  have hptQ : (pos : ℚ) ≤ (total : ℚ) := by exact_mod_cast hpt
  have htpos : (0 : ℚ) < (total : ℚ) := by linarith
  have hr1 : avg / 5 * (6/10) ≤ 6/10 := by
    have : avg / 5 ≤ 1 := by rw [div_le_one (by norm_num)]; linarith
    nlinarith
  have hr0 : 0 ≤ avg / 5 * (6/10) := by positivity
  have hq1 : (pos : ℚ) / (total : ℚ) * (3/10) ≤ 3/10 := by
    have : (pos : ℚ) / (total : ℚ) ≤ 1 := by
      rw [div_le_one htpos]; linarith
    nlinarith
  have hq0 : 0 ≤ (pos : ℚ) / (total : ℚ) * (3/10) := by positivity
  have he1 : min ((total : ℚ) / 100) 1 * (1/10) ≤ 1/10 := by
    have h := min_le_right ((total : ℚ) / 100) 1
    nlinarith
  have he0 : 0 ≤ min ((total : ℚ) / 100) 1 * (1/10) := by
    have h : (0 : ℚ) ≤ min ((total : ℚ) / 100) 1 :=
      le_min (by positivity) (by norm_num)
    nlinarith
  constructor <;> linarith

/-! ## C7: `performance_score` stays in `[0,1]` -/

/-- **C7** — every feedback-driven update of a `model_performance`
aggregate keeps `performance_score` in `[0,1]`: creating a new
(backend, style) row from its first feedback event yields a plausible
aggregate (`PerfInv`) and a score in `[0,1]`, and updating an existing
plausible aggregate preserves plausibility and again yields a score in
`[0,1]`.  The `rating` argument, when present, comes from the database's
`CHECK (rating BETWEEN 1 AND 5)` constraint. -/
theorem performanceScore_unit_interval :
    (∀ (ft : String) (rating : Option Int),
        (∀ r, rating = some r → 1 ≤ r ∧ r ≤ 5) →
        PerfInv (createModelPerformance ft rating).1 ∧
        0 ≤ (createModelPerformance ft rating).2 ∧
        (createModelPerformance ft rating).2 ≤ 1) ∧
    (∀ (cur : PerfAgg) (ft : String) (rating : Option Int),
        PerfInv cur →
        (∀ r, rating = some r → 1 ≤ r ∧ r ≤ 5) →
        PerfInv (updateModelPerformanceExisting cur ft rating).1 ∧
        0 ≤ (updateModelPerformanceExisting cur ft rating).2 ∧
        (updateModelPerformanceExisting cur ft rating).2 ≤ 1) := by
  have hir : ∀ (ft : String) (rating : Option Int),
      (∀ r, rating = some r → 1 ≤ r ∧ r ≤ 5) →
      (0 : ℚ) ≤ (if ratingTruthy rating ∧ ft = "rating" then
          ((rating.getD 0 : Int) : ℚ) else 3) ∧
      (if ratingTruthy rating ∧ ft = "rating" then
          ((rating.getD 0 : Int) : ℚ) else 3) ≤ 5 := by
    intro ft rating hr
    split_ifs with h
    · cases rating with
      | none => simp [ratingTruthy] at h
      | some r =>
        obtain ⟨h1, h2⟩ := hr r rfl
        simp only [Option.getD_some]
        exact ⟨by exact_mod_cast (by omega : (0:Int) ≤ r),
               by exact_mod_cast h2⟩
    · norm_num
  constructor
  · intro ft rating hr
    obtain ⟨hc0, hc5⟩ := hir ft rating hr
    have hbounds := calculatePerformanceScore_bounds
      (if ratingTruthy rating ∧ ft = "rating" then ((rating.getD 0 : Int) : ℚ) else 3)
      (if ft = "thumbs_up" then 1 else 0)
      (if ft = "thumbs_down" then 1 else 0) 1
      hc0 hc5 (by split_ifs <;> omega) (by split_ifs <;> omega) (by omega)
    simp only [createModelPerformance, PerfInv]
    refine ⟨⟨hc0, hc5, by split_ifs <;> omega, by split_ifs <;> omega, by omega⟩,
      hbounds.1, hbounds.2⟩
  · intro cur ft rating hinv hr
    obtain ⟨ha0, ha5, hp0, hpt, ht1⟩ := hinv
    have htQ : (1 : ℚ) ≤ (cur.total_feedback_count : ℚ) := by exact_mod_cast ht1
    have hnewavg :
        (0 : ℚ) ≤ (if ratingTruthy rating ∧ ft = "rating" then
            (cur.avg_rating * (cur.total_feedback_count : ℚ) +
              ((rating.getD 0 : Int) : ℚ)) / ((cur.total_feedback_count + 1 : Int) : ℚ)
          else cur.avg_rating) ∧
        (if ratingTruthy rating ∧ ft = "rating" then
            (cur.avg_rating * (cur.total_feedback_count : ℚ) +
              ((rating.getD 0 : Int) : ℚ)) / ((cur.total_feedback_count + 1 : Int) : ℚ)
          else cur.avg_rating) ≤ 5 := by
      split_ifs with h
      · cases rating with
        | none => simp [ratingTruthy] at h
        | some r =>
          obtain ⟨h1, h2⟩ := hr r rfl
          have hrQ1 : (1 : ℚ) ≤ (r : ℚ) := by exact_mod_cast h1
          have hrQ5 : (r : ℚ) ≤ 5 := by exact_mod_cast h2
          have hden : ((cur.total_feedback_count + 1 : Int) : ℚ) =
              (cur.total_feedback_count : ℚ) + 1 := by push_cast; ring
          rw [hden]
          simp only [Option.getD_some]
          constructor
          · apply div_nonneg _ (by linarith)
            nlinarith
          · rw [div_le_iff (by linarith)]
            nlinarith
      · exact ⟨ha0, ha5⟩
    have hbounds := calculatePerformanceScore_bounds _
      (cur.positive_feedback_count + (if ft = "thumbs_up" then 1 else 0))
      (cur.negative_feedback_count + (if ft = "thumbs_down" then 1 else 0))
      (cur.total_feedback_count + 1)
      hnewavg.1 hnewavg.2 (by split_ifs <;> omega) (by split_ifs <;> omega)
      (by omega)
    simp only [updateModelPerformanceExisting, PerfInv]
    exact ⟨⟨hnewavg.1, hnewavg.2, by split_ifs <;> omega, by split_ifs <;> omega,
        by omega⟩, hbounds.1, hbounds.2⟩

/-- Witness for C7 at a concrete row ⟨avg 3, total 1, positive 1,
negative 0⟩ receiving a thumbs-up. -/
theorem performanceScore_unit_interval_witness :
    0 ≤ (updateModelPerformanceExisting ⟨3, 1, 1, 0⟩ "thumbs_up" none).2 ∧
    (updateModelPerformanceExisting ⟨3, 1, 1, 0⟩ "thumbs_up" none).2 ≤ 1 := by
  have h := performanceScore_unit_interval.2 ⟨3, 1, 1, 0⟩ "thumbs_up" none
    (by refine ⟨by norm_num, by norm_num, by norm_num, by norm_num, by norm_num⟩)
    (by intro r hr; cases hr)
  exact ⟨h.2.1, h.2.2⟩

/-! ## C6: the per-feedback aggregate recurrence -/

/-- **C6** — on each new feedback record for a pair with previous
aggregates `(avg_rating, total, positive, negative)`:
`new_total = total + 1`; if the kind is a numeric rating (type `"rating"`
with a non-null, non-zero rating value) then
`new_avg_rating = (avg_rating*total + rating) / new_total`, otherwise the
average is unchanged; the positive counter increments exactly for
thumbs-up; and the recomputed score equals
`0.6*(new_avg_rating/5) + 0.3*(positive/new_total) +
0.1*min(new_total/100, 1)` where `positive` is the post-update positive
count (unchanged by a rating record). -/
theorem updateModelPerformance_recurrence (cur : PerfAgg) (ft : String)
    (rating : Option Int) (ht : 0 ≤ cur.total_feedback_count) :
    ((updateModelPerformanceExisting cur ft rating).1.total_feedback_count =
      cur.total_feedback_count + 1) ∧
    (∀ r : Int, rating = some r → r ≠ 0 → ft = "rating" →
      (updateModelPerformanceExisting cur ft rating).1.avg_rating =
        (cur.avg_rating * (cur.total_feedback_count : ℚ) + (r : ℚ)) /
          ((cur.total_feedback_count : ℚ) + 1)) ∧
    (¬ (ratingTruthy rating = true ∧ ft = "rating") →
      (updateModelPerformanceExisting cur ft rating).1.avg_rating =
        cur.avg_rating) ∧
    ((updateModelPerformanceExisting cur ft rating).1.positive_feedback_count =
      cur.positive_feedback_count + (if ft = "thumbs_up" then 1 else 0)) ∧
    ((updateModelPerformanceExisting cur ft rating).2 =
      (6/10) * ((updateModelPerformanceExisting cur ft rating).1.avg_rating / 5) +
      (3/10) * (((updateModelPerformanceExisting cur ft rating).1.positive_feedback_count : ℚ) /
        ((cur.total_feedback_count : ℚ) + 1)) +
      (1/10) * min (((cur.total_feedback_count : ℚ) + 1) / 100) 1) := by
  refine ⟨rfl, fun r hr hr0 hft => ?_, fun h => ?_, rfl, ?_⟩
  · subst hr hft
    simp only [updateModelPerformanceExisting]
    rw [if_pos (by simp [ratingTruthy, hr0])]
    simp only [Option.getD_some]
    push_cast
    ring
  · simp only [updateModelPerformanceExisting, if_neg h]
  · simp only [updateModelPerformanceExisting]
    rw [calculatePerformanceScore_eq _ _ _ _ (by omega),
      if_pos (by omega : cur.total_feedback_count + 1 > 0)]
    push_cast
    ring

/-- Witness for C6 at the concrete row ⟨avg 3, total 1, positive 1,
negative 0⟩ receiving a 4-star rating: the average becomes
`(3*1 + 4)/2 = 7/2`. -/
theorem updateModelPerformance_recurrence_witness :
    (updateModelPerformanceExisting ⟨3, 1, 1, 0⟩ "rating" (some 4)).1.avg_rating
      = 7/2 := by
  have h := (updateModelPerformance_recurrence ⟨3, 1, 1, 0⟩ "rating" (some 4)
    (by norm_num)).2.1 4 rfl (by norm_num) rfl
  rw [h]
  norm_num

/-! ## C4: monotonicity of the score under thumbs feedback -/

/-- **C4** counterexample — a thumbs-down *can increase* the stored
`performance_score`: a fresh (backend, style) row created by one
thumbs-down has score `0.6*(3/5) + 0 + 0.1*(1/100) = 0.361`, and a second
thumbs-down raises it to `0.6*(3/5) + 0 + 0.1*(2/100) = 0.362`, because
the engagement term grows with the total feedback count. -/
theorem feedback_thumbsDown_increases_score_cex :
    (createModelPerformance "thumbs_down" none).2 <
      (updateModelPerformanceExisting
        (createModelPerformance "thumbs_down" none).1 "thumbs_down" none).2 := by
  norm_num [createModelPerformance, updateModelPerformanceExisting,
    calculatePerformanceScore, ratingTruthy, min_def]

/-- Closed form of a thumbs-up / thumbs-down update: the average is
unchanged, the matching counter and the total increment. -/
theorem updateThumbs_eq (cur : PerfAgg) (rating : Option Int) :
    (updateModelPerformanceExisting cur "thumbs_up" rating).2 =
      calculatePerformanceScore cur.avg_rating
        (cur.positive_feedback_count + 1) cur.negative_feedback_count
        (cur.total_feedback_count + 1) ∧
    (updateModelPerformanceExisting cur "thumbs_down" rating).2 =
      calculatePerformanceScore cur.avg_rating cur.positive_feedback_count
        (cur.negative_feedback_count + 1) (cur.total_feedback_count + 1) := by
  constructor <;> simp [updateModelPerformanceExisting]

/-- **C4** amended — for a plausible aggregate, adding a thumbs-up never
decreases the pair's `performance_score`; adding a thumbs-down never
increases the rating and positivity components — it can raise the total
score only through the engagement term, by at most `0.001`, and not at all
once the pair already has at least 100 feedback events. -/
theorem feedback_score_monotonicity (cur : PerfAgg) (rating : Option Int)
    (hp : 0 ≤ cur.positive_feedback_count)
    (hpt : cur.positive_feedback_count ≤ cur.total_feedback_count)
    (ht : 1 ≤ cur.total_feedback_count) :
    (calculatePerformanceScore cur.avg_rating cur.positive_feedback_count
        cur.negative_feedback_count cur.total_feedback_count ≤
      (updateModelPerformanceExisting cur "thumbs_up" rating).2) ∧
    ((updateModelPerformanceExisting cur "thumbs_down" rating).2 ≤
      calculatePerformanceScore cur.avg_rating cur.positive_feedback_count
        cur.negative_feedback_count cur.total_feedback_count + 1/1000) ∧
    (100 ≤ cur.total_feedback_count →
      (updateModelPerformanceExisting cur "thumbs_down" rating).2 ≤
        calculatePerformanceScore cur.avg_rating cur.positive_feedback_count
          cur.negative_feedback_count cur.total_feedback_count) := by
  have htQ : (1 : ℚ) ≤ (cur.total_feedback_count : ℚ) := by exact_mod_cast ht
  have hpQ : (0 : ℚ) ≤ (cur.positive_feedback_count : ℚ) := by exact_mod_cast hp
  have hptQ : (cur.positive_feedback_count : ℚ) ≤ (cur.total_feedback_count : ℚ) := by
    exact_mod_cast hpt
  have htpos : (0 : ℚ) < (cur.total_feedback_count : ℚ) := by linarith
  have ht1pos : (0 : ℚ) < (cur.total_feedback_count : ℚ) + 1 := by linarith
  have hold := calculatePerformanceScore_eq cur.avg_rating
    cur.positive_feedback_count cur.negative_feedback_count
    cur.total_feedback_count (by omega)
  rw [if_pos (by omega : cur.total_feedback_count > 0)] at hold
  have hup := (updateThumbs_eq cur rating).1
  have hdn := (updateThumbs_eq cur rating).2
  have hnew_up := calculatePerformanceScore_eq cur.avg_rating
    (cur.positive_feedback_count + 1) cur.negative_feedback_count
    (cur.total_feedback_count + 1) (by omega)
  rw [if_pos (by omega : cur.total_feedback_count + 1 > 0)] at hnew_up
  have hnew_dn := calculatePerformanceScore_eq cur.avg_rating
    cur.positive_feedback_count (cur.negative_feedback_count + 1)
    (cur.total_feedback_count + 1) (by omega)
  rw [if_pos (by omega : cur.total_feedback_count + 1 > 0)] at hnew_dn
  have cast1 : ((cur.positive_feedback_count + 1 : Int) : ℚ) =
      (cur.positive_feedback_count : ℚ) + 1 := by push_cast; ring
  have cast2 : ((cur.total_feedback_count + 1 : Int) : ℚ) =
      (cur.total_feedback_count : ℚ) + 1 := by push_cast; ring
  rw [cast1, cast2] at hnew_up
  rw [cast2] at hnew_dn
  refine ⟨?_, ?_, ?_⟩
  · rw [hup, hnew_up, hold]
    have e1 : (cur.positive_feedback_count : ℚ) / (cur.total_feedback_count : ℚ) ≤
        ((cur.positive_feedback_count : ℚ) + 1) /
          ((cur.total_feedback_count : ℚ) + 1) := by
      rw [div_le_div_iff htpos ht1pos]
      nlinarith
    have e2 : min ((cur.total_feedback_count : ℚ) / 100) 1 ≤
        min (((cur.total_feedback_count : ℚ) + 1) / 100) 1 := by
      refine min_le_min (by linarith) le_rfl
    nlinarith [e1, e2]
  · rw [hdn, hnew_dn, hold]
    have e1 : (cur.positive_feedback_count : ℚ) /
        ((cur.total_feedback_count : ℚ) + 1) ≤
        (cur.positive_feedback_count : ℚ) / (cur.total_feedback_count : ℚ) := by
      rw [div_le_div_iff ht1pos htpos]
      nlinarith
    have e2 : min (((cur.total_feedback_count : ℚ) + 1) / 100) 1 ≤
        min ((cur.total_feedback_count : ℚ) / 100) 1 + 1/100 := by
      rcases le_total ((cur.total_feedback_count : ℚ) / 100) 1 with h | h
      · rw [min_eq_left h]
        calc min (((cur.total_feedback_count : ℚ) + 1) / 100) 1 ≤
            ((cur.total_feedback_count : ℚ) + 1) / 100 := min_le_left _ _
          _ = (cur.total_feedback_count : ℚ) / 100 + 1/100 := by ring
      · rw [min_eq_right h]
        calc min (((cur.total_feedback_count : ℚ) + 1) / 100) 1 ≤ 1 :=
            min_le_right _ _
          _ ≤ 1 + 1/100 := by norm_num
    nlinarith [e1, e2]
  · intro h100
    have h100Q : (100 : ℚ) ≤ (cur.total_feedback_count : ℚ) := by exact_mod_cast h100
    rw [hdn, hnew_dn, hold]
    have e1 : (cur.positive_feedback_count : ℚ) /
        ((cur.total_feedback_count : ℚ) + 1) ≤
        (cur.positive_feedback_count : ℚ) / (cur.total_feedback_count : ℚ) := by
      rw [div_le_div_iff ht1pos htpos]
      nlinarith
    have e2 : min (((cur.total_feedback_count : ℚ) + 1) / 100) 1 =
        min ((cur.total_feedback_count : ℚ) / 100) 1 := by
      have g1 : (1 : ℚ) ≤ ((cur.total_feedback_count : ℚ) + 1) / 100 := by
        rw [le_div_iff (by norm_num : (0:ℚ) < 100)]
        linarith
      have g2 : (1 : ℚ) ≤ (cur.total_feedback_count : ℚ) / 100 := by
        rw [le_div_iff (by norm_num : (0:ℚ) < 100)]
        linarith
      rw [min_eq_right g1, min_eq_right g2]
    nlinarith [e1, e2]

/-- Witness for the amended C4 at the concrete row ⟨avg 3, total 1,
positive 1, negative 0⟩: a thumbs-up does not decrease the score. -/
theorem feedback_score_monotonicity_witness :
    calculatePerformanceScore 3 1 0 1 ≤
      (updateModelPerformanceExisting ⟨3, 1, 1, 0⟩ "thumbs_up" none).2 :=
  (feedback_score_monotonicity ⟨3, 1, 1, 0⟩ none (by norm_num) (by norm_num)
    (by norm_num)).1

/-! ## C2: rate-limited backends are never invoked -/

/-- Every event of the fallback loop concerns one of the candidate names. -/
theorem tryModelsLoop_name_mem (now : ℚ) (names : List String) :
    ∀ (models : List (String × Backend)) (ev : FbEvent),
      ev ∈ (tryModelsLoop now names models).1 → ev.name ∈ names := by
  induction names with
  | nil => intro models ev h; simp [tryModelsLoop] at h
  | cons m rest ih =>
    intro models ev hev
    simp only [tryModelsLoop] at hev
    rcases hdg : dictGet models m with _ | b <;> simp only [hdg] at hev
    · rcases List.mem_cons.mp hev with rfl | hev
      · simp [FbEvent.name]
      · exact List.mem_cons_of_mem _ (ih models ev hev)
    · by_cases hv : b.validOk = true
      · rw [if_pos hv] at hev
        by_cases hc : 0 < (checkRateLimitState b now).rate_limit_remaining
        · rw [if_pos hc] at hev
          rcases hg : (checkRateLimitState b now).genResult with _ | resp <;>
            simp only [hg] at hev
          · rcases List.mem_cons.mp hev with rfl | hev
            · simp [FbEvent.name]
            · exact List.mem_cons_of_mem _ (ih _ ev hev)
          · by_cases hs : resp.success = true
            · rw [if_pos hs] at hev
              rcases List.mem_cons.mp hev with rfl | hev
              · simp [FbEvent.name]
              · simp at hev
            · rw [if_neg hs] at hev
              rcases List.mem_cons.mp hev with rfl | hev
              · simp [FbEvent.name]
              · exact List.mem_cons_of_mem _ (ih _ ev hev)
        · rw [if_neg hc] at hev
          rcases List.mem_cons.mp hev with rfl | hev
          · simp [FbEvent.name]
          · exact List.mem_cons_of_mem _ (ih _ ev hev)
      · rw [if_neg hv] at hev
        rcases List.mem_cons.mp hev with rfl | hev
        · simp [FbEvent.name]
        · exact List.mem_cons_of_mem _ (ih models ev hev)

/-- The fallback loop never invokes a backend it skipped as rate-limited,
provided the candidate list has no duplicates. -/
theorem tryModelsLoop_skipRL_not_invoked (now : ℚ) (names : List String) :
    ∀ (models : List (String × Backend)), names.Nodup →
      ∀ (n : String) (s : Bool),
        FbEvent.skipRateLimited n ∈ (tryModelsLoop now names models).1 →
        FbEvent.invoked n s ∉ (tryModelsLoop now names models).1 := by
  induction names with
  | nil => intro models _ n s hskip; simp [tryModelsLoop] at hskip
  | cons m rest ih =>
    intro models hnd n s hskip hinv
    have hm_rest : m ∉ rest := (List.nodup_cons.mp hnd).1
    have hnd_rest : rest.Nodup := (List.nodup_cons.mp hnd).2
    have key : ∀ (e : FbEvent) (ms : List (String × Backend)),
        e.name = m →
        FbEvent.skipRateLimited n ∈ e :: (tryModelsLoop now rest ms).1 →
        FbEvent.invoked n s ∈ e :: (tryModelsLoop now rest ms).1 → False := by
      intro e ms hname hsk hin
      rcases List.mem_cons.mp hsk with he1 | hsk
      · rcases List.mem_cons.mp hin with he2 | hin
        · rw [← he1] at he2
          cases he2
        · have hnm : n = m := by rw [← he1] at hname; exact hname
          have hn : FbEvent.name (FbEvent.invoked n s) ∈ rest :=
            tryModelsLoop_name_mem now rest ms _ hin
          have hn' : n ∈ rest := hn
          rw [hnm] at hn'
          exact hm_rest hn'
      · rcases List.mem_cons.mp hin with he2 | hin
        · have hnm : n = m := by rw [← he2] at hname; exact hname
          have hn : FbEvent.name (FbEvent.skipRateLimited n) ∈ rest :=
            tryModelsLoop_name_mem now rest ms _ hsk
          have hn' : n ∈ rest := hn
          rw [hnm] at hn'
          exact hm_rest hn'
        · exact ih ms hnd_rest n s hsk hin
    simp only [tryModelsLoop] at hskip hinv
    rcases hdg : dictGet models m with _ | b <;> simp only [hdg] at hskip hinv
    · exact key (FbEvent.skipMissing m) models rfl hskip hinv
    · by_cases hv : b.validOk = true
      · rw [if_pos hv] at hskip hinv
        by_cases hc : 0 < (checkRateLimitState b now).rate_limit_remaining
        · rw [if_pos hc] at hskip hinv
          rcases hg : (checkRateLimitState b now).genResult with _ | resp <;>
            simp only [hg] at hskip hinv
          · exact key (FbEvent.invoked m false) _ rfl hskip hinv
          · by_cases hs : resp.success = true
            · rw [if_pos hs] at hskip
              simp at hskip
            · rw [if_neg hs] at hskip hinv
              exact key (FbEvent.invoked m false) _ rfl hskip hinv
        · rw [if_neg hc] at hskip hinv
          exact key (FbEvent.skipRateLimited m) _ rfl hskip hinv
      · rw [if_neg hv] at hskip hinv
        exact key (FbEvent.skipInvalid m) models rfl hskip hinv

/-- Appending only fresh names preserves freedom from duplicates. -/
theorem addNew_nodup (l : List String) :
    ∀ acc : List String, acc.Nodup → (addNew acc l).Nodup := by
  induction l with
  | nil => intro acc h; exact h
  | cons n rest ih =>
    intro acc h
    simp only [addNew]
    by_cases hm : n ∈ acc
    · rw [if_pos hm]
      exact ih acc h
    · rw [if_neg hm]
      refine ih _ ?_
      simp [List.nodup_append, h, hm]

/-- The candidate list built by `generate_with_fallback` has no
duplicates. -/
theorem modelsToTry_nodup (mgr : ModelManager) (preferred : Option String)
    (now : ℚ) : ((modelsToTry mgr preferred now).1).Nodup := by
  have h1 : (match preferred with
      | some p => if p ≠ "" ∧ (dictGet mgr.models p).isSome then [p] else []
      | none => ([] : List String)).Nodup := by
    rcases preferred with _ | p
    · simp
    · have aux : (if p ≠ "" ∧ (dictGet mgr.models p).isSome then [p]
          else ([] : List String)).Nodup := by
        split_ifs <;> simp
      exact aux
  have h2 : ∀ (l1 : List String), l1.Nodup →
      (match mgr.default_model with
       | some d => if d ≠ "" ∧ d ∉ l1 then l1 ++ [d] else l1
       | none => l1).Nodup := by
    intro l1 h
    rcases mgr.default_model with _ | d
    · exact h
    · have aux : (if d ≠ "" ∧ d ∉ l1 then l1 ++ [d] else l1).Nodup := by
        split_ifs with hd
        · simp [List.nodup_append, h, hd.2]
        · exact h
      exact aux
  simp only [modelsToTry]
  exact addNew_nodup _ _ (h2 _ h1)

/-- **C2** — for every backend `b` whose `check_rate_limit()` is false at
the moment `b` is considered during the fallback loop (the loop emits
`skipRateLimited b`), `generate_with_fallback` never invokes `b`'s
`generate_response`: no `invoked b` event appears in the loop's trace. -/
theorem generateWithFallback_never_invokes_rate_limited
    (mgr : ModelManager) (preferred : Option String) (now : ℚ) (n : String)
    (hskip : FbEvent.skipRateLimited n ∈
      (generateWithFallbackTr mgr preferred now).1) :
    ∀ s : Bool, FbEvent.invoked n s ∉
      (generateWithFallbackTr mgr preferred now).1 := by
  intro s
  simp only [generateWithFallbackTr] at hskip ⊢
  exact tryModelsLoop_skipRL_not_invoked now _ _
    (modelsToTry_nodup mgr preferred now) n s hskip

/-- Witness for C2: in the sample registry, the preferred backend `b` is
rate-limited, so it is skipped and never invoked. -/
theorem generateWithFallback_never_invokes_rate_limited_witness :
    FbEvent.invoked "b" true ∉ (generateWithFallbackTr exMgr (some "b") 0).1 :=
  generateWithFallback_never_invokes_rate_limited exMgr (some "b") 0 "b"
    (by
      have hnr : ∀ (nm : String) (ok : Bool) (rem : Int) (r : Option ModelResponse),
          checkRateLimitState (exBackend nm ok rem r) 0 = exBackend nm ok rem r := by
        intro nm ok rem r
        apply if_neg
        norm_num [exBackend]
      have hval : ∀ nm ok rem r, (exBackend nm ok rem r).validOk = ok :=
        fun _ _ _ _ => rfl
      have hrem : ∀ nm ok rem r,
          (exBackend nm ok rem r).rate_limit_remaining = rem := fun _ _ _ _ => rfl
      have hgen : ∀ nm ok rem r, (exBackend nm ok rem r).genResult = r :=
        fun _ _ _ _ => rfl
      have hsucc : ∀ nm s, (exResponse nm s).success = s := fun _ _ => rfl
      simp [generateWithFallbackTr, modelsToTry, availScan, addNew, tryModelsLoop,
        dictGet, dictSet, exMgr, hnr, hval, hrem, hgen, hsucc, List.find?]) true

/-! ## C1: `generate_with_fallback` refines its specification

The code-side `generateWithFallback` threads the adapter states through the
availability scan and the loop (each `check_rate_limit` call may lazily
reset a daily counter in place); the spec-side `specFallback` evaluates
everything against the initial registry.  The two agree because a reset is
idempotent and does not change validation results, generation oracles or
the outcome of further rate-limit checks at the same time. -/

/-- A lazy daily reset is idempotent (it does not touch
`last_request_time`). -/
theorem checkRateLimitState_idem (b : Backend) (now : ℚ) :
    checkRateLimitState (checkRateLimitState b now) now =
      checkRateLimitState b now := by
  by_cases h : now - b.last_request_time > 86400 <;>
    simp [checkRateLimitState, h]

/-- The reset leaves `validOk` unchanged. -/
theorem checkRateLimitState_validOk (b : Backend) (now : ℚ) :
    (checkRateLimitState b now).validOk = b.validOk := by
  unfold checkRateLimitState
  split_ifs <;> rfl

/-- The reset leaves the generation oracle unchanged. -/
theorem checkRateLimitState_genResult (b : Backend) (now : ℚ) :
    (checkRateLimitState b now).genResult = b.genResult := by
  unfold checkRateLimitState
  split_ifs <;> rfl

/-- Related adapters yield the same post-check state. -/
theorem RelB.state_eq {now : ℚ} {b b' : Backend} (h : RelB now b b') :
    checkRateLimitState b' now = checkRateLimitState b now := by
  rcases h with rfl | rfl
  · rfl
  · exact checkRateLimitState_idem b now

/-- Related adapters agree on `validate_configuration`. -/
theorem RelB.validOk_eq {now : ℚ} {b b' : Backend} (h : RelB now b b') :
    b'.validOk = b.validOk := by
  rcases h with rfl | rfl
  · rfl
  · exact checkRateLimitState_validOk b now

/-- The availability scan only evolves adapters within `RelB`. -/
theorem relM_availScan (now : ℚ) :
    ∀ m : List (String × Backend), RelM now m (availScan now m).2 := by
  intro m
  induction m with
  | nil => exact List.Forall₂.nil
  | cons p rest ih =>
    obtain ⟨k, b⟩ := p
    simp only [availScan]
    by_cases hv : b.validOk = true
    · rw [if_pos hv]
      exact List.Forall₂.cons ⟨rfl, Or.inr rfl⟩ ih
    · rw [if_neg hv]
      exact List.Forall₂.cons ⟨rfl, Or.inl rfl⟩ ih

/-- Related registries have the same keys. -/
theorem RelM.keys_eq {now : ℚ} :
    ∀ {m m' : List (String × Backend)}, RelM now m m' →
      m.map Prod.fst = m'.map Prod.fst := by
  intro m m' h
  induction h with
  | nil => rfl
  | cons hpq _ ih =>
    simp only [List.map_cons, ih]
    rw [hpq.1]

/-- Lookup in related registries: both miss, or both hit with related
adapters. -/
theorem relM_dictGet {now : ℚ} {m m' : List (String × Backend)}
    (h : RelM now m m') (k : String) :
    (dictGet m k = none ∧ dictGet m' k = none) ∨
    ∃ b b', dictGet m k = some b ∧ dictGet m' k = some b' ∧ RelB now b b' := by
  induction h with
  | nil => exact Or.inl ⟨rfl, rfl⟩
  | @cons a b as bs hpq _ ih =>
    obtain ⟨hk, hb⟩ := hpq
    by_cases hkk : a.1 = k
    · right
      have hbk : b.1 = k := hk ▸ hkk
      refine ⟨a.2, b.2, ?_, ?_, hb⟩
      · simp [dictGet, List.find?, hkk]
      · simp [dictGet, List.find?, hbk]
    · have hbk : ¬ b.1 = k := by rw [← hk]; exact hkk
      have e1 : dictGet (a :: as) k = dictGet as k := by
        simp [dictGet, List.find?, hkk]
      have e2 : dictGet (b :: bs) k = dictGet bs k := by
        simp [dictGet, List.find?, hbk]
      rw [e1, e2]
      exact ih

/-- Updating a key that is absent is a no-op. -/
theorem dictSet_not_mem {m : List (String × Backend)} {k : String}
    {c : Backend} (h : k ∉ m.map Prod.fst) : dictSet m k c = m := by
  induction m with
  | nil => rfl
  | cons p rest ih =>
    simp only [List.map_cons, List.mem_cons] at h
    push_neg at h
    simp only [dictSet, List.map_cons]
    rw [if_neg (fun e => h.1 e.symm)]
    have := ih h.2
    simp only [dictSet] at this
    rw [this]

/-- Writing a `RelB`-related value at an existing (unique) key preserves
`RelM`. -/
theorem relM_dictSet {now : ℚ} :
    ∀ {m m' : List (String × Backend)}, (m.map Prod.fst).Nodup →
      RelM now m m' → ∀ {k : String} {b c : Backend},
      dictGet m k = some b → RelB now b c → RelM now m (dictSet m' k c) := by
  intro m m' hnd h
  induction h with
  | nil => intro k b c hget _; cases hget
  | @cons a b as bs hpq hrest ih =>
    intro k bb c hget hc
    obtain ⟨hk, hb⟩ := hpq
    simp only [List.map_cons, List.nodup_cons] at hnd
    by_cases hkk : a.1 = k
    · have hbk : b.1 = k := hk ▸ hkk
      have hbb : a.2 = bb := by
        have e0 : dictGet (a :: as) k = some a.2 := by
          simp [dictGet, List.find?, hkk]
        rw [e0] at hget
        exact Option.some.inj hget
      have hc2 : RelB now a.2 c := by rw [hbb]; exact hc
      have htail : dictSet bs k c = bs := by
        apply dictSet_not_mem
        rw [← RelM.keys_eq hrest]
        rw [← hkk]
        exact hnd.1
      simp only [dictSet, List.map_cons]
      rw [if_pos hbk]
      have e : (List.map (fun p => if p.1 = k then (p.1, c) else p) bs) = bs := htail
      rw [e]
      exact List.Forall₂.cons ⟨hk, hc2⟩ hrest
    · have hbk : ¬ b.1 = k := by rw [← hk]; exact hkk
      have e1 : dictGet (a :: as) k = dictGet as k := by
        simp [dictGet, List.find?, hkk]
      rw [e1] at hget
      simp only [dictSet, List.map_cons]
      rw [if_neg hbk]
      exact List.Forall₂.cons ⟨hk, hb⟩ (ih hnd.2 hget hc)

/-- The scanned availability list names exactly the backends that pass
validation and whose (initial-state) rate-limit check is true, in
registration order. -/
theorem availScan_names (now : ℚ) :
    ∀ m : List (String × Backend),
      (availScan now m).1 =
        (m.filter (fun p => p.2.validOk && specCheckBool p.2 now)).map (·.1) := by
  intro m
  induction m with
  | nil => rfl
  | cons p rest ih =>
    obtain ⟨k, b⟩ := p
    simp only [availScan, List.filter_cons]
    by_cases hv : b.validOk = true
    · rw [if_pos hv]
      by_cases hc : 0 < (checkRateLimitState b now).rate_limit_remaining
      · rw [if_pos hc]
        have : (b.validOk && specCheckBool b now) = true := by
          simp [hv, specCheckBool, hc]
        rw [this]
        simp [ih]
      · rw [if_neg hc]
        have : (b.validOk && specCheckBool b now) = false := by
          simp [hv, specCheckBool, hc]
        rw [this]
        simp [ih]
    · rw [if_neg hv]
      have : (b.validOk && specCheckBool b now) = false := by
        simp [Bool.eq_false_iff.mpr hv]
      rw [this]
      simp [ih]

/-- The incremental duplicate-avoiding append equals append-then-filter on
a duplicate-free list. -/
theorem addNew_eq_append_filter :
    ∀ (l acc : List String), l.Nodup →
      addNew acc l = acc ++ l.filter (· ∉ acc) := by
  intro l
  induction l with
  | nil => intro acc _; simp [addNew]
  | cons n rest ih =>
    intro acc hnd
    have hn : n ∉ rest := (List.nodup_cons.mp hnd).1
    have hr : rest.Nodup := (List.nodup_cons.mp hnd).2
    simp only [addNew, List.filter_cons]
    by_cases hm : n ∈ acc
    · rw [if_pos hm, ih acc hr]
      have : (decide (n ∉ acc)) = false := by simp [hm]
      rw [this]
      simp
    · rw [if_neg hm, ih _ hr]
      have : (decide (n ∉ acc)) = true := by simp [hm]
      rw [this]
      have hfc : rest.filter (fun x => decide (x ∉ acc ++ [n])) =
          rest.filter (fun x => decide (x ∉ acc)) := by
        apply List.filter_congr
        intro x hx
        have hxn : x ≠ n := fun e => hn (e ▸ hx)
        simp [List.mem_append, hxn]
      rw [hfc]
      simp

/-- The candidate order computed by the code equals the spec-side
candidate order. -/
theorem modelsToTry_eq_specOrder (mgr : ModelManager)
    (preferred : Option String) (now : ℚ)
    (hnd : (mgr.models.map Prod.fst).Nodup) :
    (modelsToTry mgr preferred now).1 = specCandidateOrder mgr preferred now := by
  have havail_nd : (specAvailable mgr now).Nodup := by
    have hsub : List.Sublist
        ((mgr.models.filter
          (fun p => p.2.validOk && specCheckBool p.2 now)).map Prod.fst)
        (mgr.models.map Prod.fst) :=
      (List.filter_sublist _).map Prod.fst
    exact List.Nodup.sublist hsub hnd
  simp only [modelsToTry, specCandidateOrder, specAvailable]
  rw [availScan_names now mgr.models]
  exact addNew_eq_append_filter _ _ havail_nd

/-- The state-threaded fallback loop computes the spec-side first
success. -/
theorem tryModelsLoop_spec (now : ℚ) (names : List String) :
    ∀ (m mc : List (String × Backend)), (m.map Prod.fst).Nodup →
      RelM now m mc →
      (tryModelsLoop now names mc).2.1 = specFirstSuccess m now names := by
  induction names with
  | nil => intro m mc _ _; rfl
  | cons n rest ih =>
    intro m mc hnd hrel
    simp only [tryModelsLoop, specFirstSuccess]
    rcases relM_dictGet hrel n with ⟨h1, h2⟩ | ⟨b, b', h1, h2, hbb⟩
    · simp only [h1, h2]
      exact ih m mc hnd hrel
    · simp only [h1, h2]
      have hval := RelB.validOk_eq hbb
      have hstate := RelB.state_eq hbb
      by_cases hv : b.validOk = true
      · rw [hval, if_pos hv]
        by_cases hc : 0 < (checkRateLimitState b now).rate_limit_remaining
        · have hc' : 0 < (checkRateLimitState b' now).rate_limit_remaining := by
            rw [hstate]; exact hc
          rw [if_pos hc']
          have hspec : (b.validOk && specCheckBool b now) = true := by
            simp [hv, specCheckBool, hc]
          rw [hspec]
          have hrel' : RelM now m (dictSet mc n (checkRateLimitState b' now)) :=
            relM_dictSet hnd hrel h1 (Or.inr hstate)
          have hgen : (checkRateLimitState b' now).genResult = b.genResult := by
            rw [hstate]; exact checkRateLimitState_genResult b now
          rcases hg : b.genResult with _ | resp
          · simp only [hgen, hg]
            exact ih m _ hnd hrel'
          · simp only [hgen, hg]
            by_cases hs : resp.success = true
            · simp [hs]
            · rw [if_neg hs, if_neg hs]
              exact ih m _ hnd hrel'
        · have hc' : ¬ 0 < (checkRateLimitState b' now).rate_limit_remaining := by
            rw [hstate]; exact hc
          rw [if_neg hc']
          have hspec : (b.validOk && specCheckBool b now) = false := by
            simp [specCheckBool, hc]
          rw [hspec]
          have hrel' : RelM now m (dictSet mc n (checkRateLimitState b' now)) :=
            relM_dictSet hnd hrel h1 (Or.inr hstate)
          exact ih m _ hnd hrel'
      · rw [hval, if_neg hv]
        have hspec : (b.validOk && specCheckBool b now) = false := by
          simp [Bool.eq_false_iff.mpr hv]
        rw [hspec]
        exact ih m mc hnd hrel

/-- **C1** — `generate_with_fallback` builds the candidate order required
by the specification (preferred if registered, then the default if not
already included, then the remaining currently-available backends in
registration order), tries each candidate in turn skipping any that fails
validation or whose rate-limit check is false, returns the first
successful result, and, when every candidate is exhausted without success,
returns the failed result with `model_used = "none"` and the message that
all backends failed or are rate-limited (`specFallback` is exactly that
algorithm read off the specification, evaluated on the initial states). -/
theorem generateWithFallback_refines_spec (mgr : ModelManager)
    (preferred : Option String) (now : ℚ)
    (hnd : (mgr.models.map Prod.fst).Nodup) :
    (modelsToTry mgr preferred now).1 = specCandidateOrder mgr preferred now ∧
    (generateWithFallback mgr preferred now).1 = specFallback mgr preferred now := by
  refine ⟨modelsToTry_eq_specOrder mgr preferred now hnd, ?_⟩
  simp only [generateWithFallback, generateWithFallbackTr, specFallback]
  have e : (modelsToTry mgr preferred now).2.models = (availScan now mgr.models).2 := by
    simp only [modelsToTry]
  rw [e, tryModelsLoop_spec now _ mgr.models _ hnd (relM_availScan now mgr.models),
    modelsToTry_eq_specOrder mgr preferred now hnd]

/-- Witness for C1 at the sample registry (invalid default `a`,
rate-limited preferred `b`, healthy `c`). -/
theorem generateWithFallback_refines_spec_witness :
    (modelsToTry exMgr (some "b") 0).1 = specCandidateOrder exMgr (some "b") 0 ∧
    (generateWithFallback exMgr (some "b") 0).1 = specFallback exMgr (some "b") 0 :=
  generateWithFallback_refines_spec exMgr (some "b") 0 (by decide)

/-! ## C5: post-processing and idempotence

String lemmas for the post-processing pipeline: Python `strip`, `split`,
`join` and the sentence de-duplication loop, leading to idempotence of
`_improve_response_quality` and of the full `_post_process_response` for
the styles without a style-specific touch, on inputs whose output does not
leak a "You are" prefix. -/

theorem pyLStrip_head : ∀ (l : List Char) (c : Char),
    (pyLStrip l).head? = some c → isPySpace c = false := by
  intro l
  induction l with
  | nil => intro c h; cases h
  | cons d ds ih =>
    intro c h
    by_cases hd : isPySpace d = true
    · rw [pyLStrip, if_pos hd] at h
      exact ih c h
    · rw [pyLStrip, if_neg hd] at h
      cases h
      exact Bool.eq_false_iff.mpr hd

theorem pyLStrip_of_head (l : List Char)
    (h : ∀ c, l.head? = some c → isPySpace c = false) : pyLStrip l = l := by
  cases l with
  | nil => rfl
  | cons d ds =>
    rw [pyLStrip, if_neg]
    rw [h d rfl]
    simp

theorem pyLStrip_suffix : ∀ l : List Char, pyLStrip l <:+ l := by
  intro l
  induction l with
  | nil => exact List.suffix_refl _
  | cons d ds ih =>
    by_cases hd : isPySpace d = true
    · rw [pyLStrip, if_pos hd]
      exact ih.trans (List.suffix_cons d ds)
    · rw [pyLStrip, if_neg hd]

theorem pyRStrip_prefixOf (l : List Char) : pyRStrip l <+: l := by
  have h := pyLStrip_suffix l.reverse
  have h2 := h.reverse
  rwa [List.reverse_reverse] at h2

theorem prefix_head_eq {a b : List Char} {c : Char} (h : a <+: b)
    (hc : a.head? = some c) : b.head? = some c := by
  obtain ⟨t, rfl⟩ := h
  cases a with
  | nil => cases hc
  | cons d ds => cases hc; rfl

theorem pyLStrip_idem (l : List Char) : pyLStrip (pyLStrip l) = pyLStrip l :=
  pyLStrip_of_head _ (pyLStrip_head l)

theorem pyRStrip_head {l : List Char} {c : Char}
    (h : (pyRStrip l).head? = some c) : l.head? = some c :=
  prefix_head_eq (pyRStrip_prefixOf l) h

theorem pyRStrip_getLast : ∀ (l : List Char) (c : Char),
    (pyRStrip l).getLast? = some c → isPySpace c = false := by
  intro l c h
  rw [pyRStrip, List.getLast?_reverse] at h
  exact pyLStrip_head _ c h

theorem pyRStrip_of_getLast (l : List Char)
    (h : ∀ c, l.getLast? = some c → isPySpace c = false) : pyRStrip l = l := by
  rw [pyRStrip, pyLStrip_of_head, List.reverse_reverse]
  intro c hc
  rw [List.head?_reverse] at hc
  exact h c hc

theorem pyStrip_infixOf (l : List Char) : pyStrip l <:+: l :=
  ((pyRStrip_prefixOf (pyLStrip l)).isInfix).trans (pyLStrip_suffix l).isInfix

theorem pyStrip_head {l : List Char} {c : Char}
    (h : (pyStrip l).head? = some c) : isPySpace c = false :=
  pyLStrip_head l c (pyRStrip_head h)

theorem pyStrip_getLast {l : List Char} {c : Char}
    (h : (pyStrip l).getLast? = some c) : isPySpace c = false :=
  pyRStrip_getLast _ c h

theorem pyStrip_of_ok (l : List Char)
    (h1 : ∀ c, l.head? = some c → isPySpace c = false)
    (h2 : ∀ c, l.getLast? = some c → isPySpace c = false) : pyStrip l = l := by
  rw [pyStrip, pyLStrip_of_head l h1, pyRStrip_of_getLast l h2]

theorem pyStrip_idem (l : List Char) : pyStrip (pyStrip l) = pyStrip l :=
  pyStrip_of_ok _ (fun c h => pyStrip_head h) (fun c h => pyStrip_getLast h)

theorem pyStrip_cons_space (l : List Char) : pyStrip (' ' :: l) = pyStrip l := by
  have h : pyLStrip (' ' :: l) = pyLStrip l := by
    simp [pyLStrip, isPySpace]
  rw [pyStrip, pyStrip, h]
theorem pySplit_ne_nil (sep : Char) : ∀ l : List Char, pySplit sep l ≠ [] := by
  intro l
  cases l with
  | nil => simp [pySplit]
  | cons c cs =>
    rw [pySplit]
    by_cases h : c = sep
    · rw [if_pos h]; simp
    · rw [if_neg h]
      cases hs : pySplit sep cs <;> simp

theorem pySplit_cons_eq (sep : Char) (r : List Char) :
    pySplit sep (sep :: r) = [] :: pySplit sep r := by
  simp [pySplit]

theorem pySplit_cons_ne {sep c : Char} {r h : List Char} {t : List (List Char)}
    (hc : ¬ c = sep) (hr : pySplit sep r = h :: t) :
    pySplit sep (c :: r) = (c :: h) :: t := by
  rw [pySplit, if_neg hc, hr]

theorem pySplit_notin {sep : Char} : ∀ {a : List Char}, sep ∉ a →
    pySplit sep a = [a] := by
  intro a
  induction a with
  | nil => intro _; rfl
  | cons c cs ih =>
    intro h
    have hc : ¬ c = sep := fun e => h (by simp [e])
    have hcs : sep ∉ cs := fun e => h (List.mem_cons_of_mem _ e)
    exact pySplit_cons_ne hc (ih hcs)

theorem pySplit_append_notin {sep : Char} : ∀ {a : List Char} (r : List Char),
    sep ∉ a → pySplit sep (a ++ sep :: r) = a :: pySplit sep r := by
  intro a
  induction a with
  | nil =>
    intro r _
    simp only [List.nil_append]
    exact pySplit_cons_eq sep r
  | cons c cs ih =>
    intro r h
    have hc : ¬ c = sep := fun e => h (by simp [e])
    have hcs : sep ∉ cs := fun e => h (List.mem_cons_of_mem _ e)
    have := ih r hcs
    simp only [List.cons_append]
    exact pySplit_cons_ne hc this

theorem pySplit_append_last (sep : Char) : ∀ w : List Char,
    pySplit sep (w ++ [sep]) = pySplit sep w ++ [[]] := by
  intro w
  induction w with
  | nil =>
    simp [pySplit]
  | cons c cs ih =>
    by_cases hc : c = sep
    · subst hc
      simp only [List.cons_append]
      rw [pySplit_cons_eq, ih, pySplit_cons_eq]
      rfl
    · simp only [List.cons_append]
      rcases hs : pySplit sep cs with _ | ⟨h, t⟩
      · exact absurd hs (pySplit_ne_nil sep cs)
      · have h2 : pySplit sep (cs ++ [sep]) = h :: (t ++ [[]]) := by
          rw [ih, hs]; rfl
        rw [pySplit_cons_ne hc h2, pySplit_cons_ne hc hs]
        rfl

theorem pySplit_mem_not (sep : Char) : ∀ (l f : List Char),
    f ∈ pySplit sep l → sep ∉ f := by
  intro l
  induction l with
  | nil =>
    intro f hf
    simp [pySplit] at hf
    simp [hf]
  | cons c cs ih =>
    intro f hf
    by_cases hc : c = sep
    · subst hc
      rw [pySplit_cons_eq] at hf
      rcases List.mem_cons.mp hf with rfl | hf
      · simp
      · exact ih f hf
    · rcases hs : pySplit sep cs with _ | ⟨h, t⟩
      · exact absurd hs (pySplit_ne_nil sep cs)
      · rw [pySplit_cons_ne hc hs] at hf
        rcases List.mem_cons.mp hf with rfl | hf
        · intro hm
          rcases List.mem_cons.mp hm with rfl | hm
          · exact hc rfl
          · exact ih h (by rw [hs]; exact List.mem_cons_self _ _) hm
        · exact ih f (by rw [hs]; exact List.mem_cons_of_mem _ hf)

theorem pyJoin_cons_cons (sep v w : List Char) (ws : List (List Char)) :
    pyJoin sep (v :: w :: ws) = v ++ sep ++ pyJoin sep (w :: ws) := rfl

theorem pyJoin_ne_nil {sep : List Char} : ∀ {v : List Char}
    (vs : List (List Char)), v ≠ [] → pyJoin sep (v :: vs) ≠ [] := by
  intro v vs hv
  cases vs with
  | nil => exact hv
  | cons w ws =>
    rw [pyJoin_cons_cons]
    simp [hv]

theorem pyJoin_head {sep : List Char} : ∀ (us : List (List Char))
    (u₁ : List Char), u₁ ≠ [] →
    (pyJoin sep (u₁ :: us)).head? = u₁.head? := by
  intro us u₁ h
  cases us with
  | nil => rfl
  | cons v vs =>
    rw [pyJoin_cons_cons]
    cases u₁ with
    | nil => exact absurd rfl h
    | cons c cs => rfl

theorem pyJoin_getLast : ∀ (us : List (List Char)) (u₁ : List Char),
    (∀ v ∈ us, v ≠ []) →
    ∃ w, w ∈ u₁ :: us ∧
      (pyJoin ['.', ' '] (u₁ :: us)).getLast? = w.getLast? := by
  intro us
  induction us with
  | nil =>
    intro u₁ _
    exact ⟨u₁, List.mem_cons_self _ _, rfl⟩
  | cons v vs ih =>
    intro u₁ hne
    obtain ⟨w, hw1, hw2⟩ := ih v (fun x hx => hne x (List.mem_cons_of_mem _ hx))
    have hjne : pyJoin ['.', ' '] (v :: vs) ≠ [] :=
      pyJoin_ne_nil vs (hne v (List.mem_cons_self _ _))
    obtain ⟨z, hz⟩ := Option.isSome_iff_exists.mp
      (List.getLast?_isSome.mpr hjne)
    refine ⟨w, List.mem_cons_of_mem _ hw1, ?_⟩
    rw [pyJoin_cons_cons, List.getLast?_append, hz]
    rw [hz] at hw2
    simpa using hw2

theorem pyJoin_split : ∀ (us : List (List Char)) (u₁ : List Char),
    '.' ∉ u₁ → (∀ v ∈ us, '.' ∉ v) →
    pySplit '.' (pyJoin ['.', ' '] (u₁ :: us)) =
      u₁ :: us.map (fun v => ' ' :: v) := by
  intro us
  induction us with
  | nil =>
    intro u₁ h _
    exact pySplit_notin h
  | cons v vs ih =>
    intro u₁ h hvs
    have hv : '.' ∉ v := hvs v (List.mem_cons_self _ _)
    have hrec := ih v hv (fun x hx => hvs x (List.mem_cons_of_mem _ hx))
    have hsp : ¬ ' ' = '.' := by decide
    have e2 := pySplit_cons_ne hsp hrec
    rw [pyJoin_cons_cons]
    have e : u₁ ++ ['.', ' '] ++ pyJoin ['.', ' '] (v :: vs) =
        u₁ ++ '.' :: (' ' :: pyJoin ['.', ' '] (v :: vs)) := by simp
    rw [e, pySplit_append_notin _ h, e2]
    rfl

theorem dedupe_append : ∀ (l₁ l₂ acc : List (List Char)),
    dedupeSentences (l₁ ++ l₂) acc = dedupeSentences l₂ (dedupeSentences l₁ acc) := by
  intro l₁
  induction l₁ with
  | nil => intro l₂ acc; rfl
  | cons s rest ih =>
    intro l₂ acc
    simp only [List.cons_append, dedupeSentences, List.append_eq]
    by_cases h : pyStrip s ≠ [] ∧ ∀ e ∈ acc, ¬ pyLower (pyStrip s) <:+: pyLower e
    · rw [if_pos h, if_pos h, ih]
    · rw [if_neg h, if_neg h, ih]

theorem dedupe_fixpoint : ∀ (l acc : List (List Char)),
    (∀ s ∈ l, pyStrip s ≠ []) →
    (l.map pyStrip).Pairwise (fun a b => ¬ pyLower b <:+: pyLower a) →
    (∀ s ∈ l, ∀ e ∈ acc, ¬ pyLower (pyStrip s) <:+: pyLower e) →
    dedupeSentences l acc = acc ++ l.map pyStrip := by
  intro l
  induction l with
  | nil => intro acc _ _ _; simp [dedupeSentences]
  | cons s rest ih =>
    intro acc hne hpw hacc
    simp only [dedupeSentences, List.map_cons]
    rw [if_pos ⟨hne s (List.mem_cons_self _ _),
      fun e he => hacc s (List.mem_cons_self _ _) e he⟩]
    rw [ih (acc ++ [pyStrip s])
      (fun t ht => hne t (List.mem_cons_of_mem _ ht))
      ((List.pairwise_cons.mp hpw).2)
      ?_]
    · simp
    · intro t ht e he
      rcases List.mem_append.mp he with he | he
      · exact hacc t (List.mem_cons_of_mem _ ht) e he
      · have : e = pyStrip s := by simpa using he
        subst this
        exact (List.pairwise_cons.mp hpw).1 (pyStrip t)
          (List.mem_map_of_mem pyStrip ht)

theorem dedupe_sound : ∀ (l acc : List (List Char)),
    (∀ x ∈ acc, x ≠ [] ∧ pyStrip x = x) →
    acc.Pairwise (fun a b => ¬ pyLower b <:+: pyLower a) →
    (∀ x ∈ dedupeSentences l acc, x ∈ acc ∨ ∃ s ∈ l, x = pyStrip s) ∧
    (∀ x ∈ dedupeSentences l acc, x ≠ [] ∧ pyStrip x = x) ∧
    (dedupeSentences l acc).Pairwise (fun a b => ¬ pyLower b <:+: pyLower a) := by
  intro l
  induction l with
  | nil =>
    intro acc hacc hpw
    exact ⟨fun x hx => Or.inl hx, hacc, hpw⟩
  | cons s rest ih =>
    intro acc hacc hpw
    simp only [dedupeSentences]
    by_cases h : pyStrip s ≠ [] ∧ ∀ e ∈ acc, ¬ pyLower (pyStrip s) <:+: pyLower e
    · rw [if_pos h]
      have hacc' : ∀ x ∈ acc ++ [pyStrip s], x ≠ [] ∧ pyStrip x = x := by
        intro x hx
        rcases List.mem_append.mp hx with hx | hx
        · exact hacc x hx
        · have : x = pyStrip s := by simpa using hx
          subst this
          exact ⟨h.1, pyStrip_idem s⟩
      have hpw' : (acc ++ [pyStrip s]).Pairwise
          (fun a b => ¬ pyLower b <:+: pyLower a) := by
        rw [List.pairwise_append]
        refine ⟨hpw, by simp, ?_⟩
        intro a ha b hb
        have : b = pyStrip s := by simpa using hb
        subst this
        exact h.2 a ha
      obtain ⟨m1, m2, m3⟩ := ih (acc ++ [pyStrip s]) hacc' hpw'
      refine ⟨?_, m2, m3⟩
      intro x hx
      rcases m1 x hx with hx2 | ⟨t, ht, rfl⟩
      · rcases List.mem_append.mp hx2 with hx3 | hx3
        · exact Or.inl hx3
        · have : x = pyStrip s := by simpa using hx3
          exact Or.inr ⟨s, List.mem_cons_self _ _, this⟩
      · exact Or.inr ⟨t, List.mem_cons_of_mem _ ht, rfl⟩
    · rw [if_neg h]
      obtain ⟨m1, m2, m3⟩ := ih acc hacc hpw
      refine ⟨?_, m2, m3⟩
      intro x hx
      rcases m1 x hx with hx2 | ⟨t, ht, rfl⟩
      · exact Or.inl hx2
      · exact Or.inr ⟨t, List.mem_cons_of_mem _ ht, rfl⟩

theorem head?_append_left {a : List Char} (b : List Char) (h : a ≠ []) :
    (a ++ b).head? = a.head? := by
  cases a with
  | nil => exact absurd rfl h
  | cons c cs => rfl

theorem improve_core_facts (c : List Char) :
    (∀ x ∈ dedupeSentences (pySplit '.' c) [],
      x ≠ [] ∧ pyStrip x = x ∧ '.' ∉ x) ∧
    (dedupeSentences (pySplit '.' c) []).Pairwise
      (fun a b => ¬ pyLower b <:+: pyLower a) := by
  obtain ⟨m1, m2, m3⟩ := dedupe_sound (pySplit '.' c) [] (by simp) (by simp)
  refine ⟨fun x hx => ⟨(m2 x hx).1, (m2 x hx).2, ?_⟩, m3⟩
  rcases m1 x hx with h | ⟨s, hs, rfl⟩
  · simp at h
  · intro hm
    exact pySplit_mem_not '.' c s hs ((pyStrip_infixOf s).subset hm)

theorem dedupe_improve_roundtrip (u₁ : List Char) (us : List (List Char))
    (hfacts : ∀ x ∈ u₁ :: us, x ≠ [] ∧ pyStrip x = x)
    (hpw : (u₁ :: us).Pairwise (fun a b => ¬ pyLower b <:+: pyLower a)) :
    dedupeSentences (u₁ :: us.map (fun v => ' ' :: v)) [] = u₁ :: us := by
  have hmap : (u₁ :: us.map (fun v => ' ' :: v)).map pyStrip = u₁ :: us := by
    simp only [List.map_cons, List.map_map]
    rw [(hfacts u₁ (List.mem_cons_self _ _)).2]
    congr 1
    rw [List.map_congr_left, List.map_id]
    intro v hv
    simp only [Function.comp_apply]
    rw [pyStrip_cons_space]
    exact (hfacts v (List.mem_cons_of_mem _ hv)).2
  have h1 : ∀ s ∈ u₁ :: us.map (fun v => ' ' :: v), pyStrip s ≠ [] := by
    intro s hs
    rcases List.mem_cons.mp hs with rfl | hs
    · rw [(hfacts s (List.mem_cons_self _ _)).2]
      exact (hfacts s (List.mem_cons_self _ _)).1
    · obtain ⟨v, hv, rfl⟩ := List.mem_map.mp hs
      rw [pyStrip_cons_space, (hfacts v (List.mem_cons_of_mem _ hv)).2]
      exact (hfacts v (List.mem_cons_of_mem _ hv)).1
  have h2 : ((u₁ :: us.map (fun v => ' ' :: v)).map pyStrip).Pairwise
      (fun a b => ¬ pyLower b <:+: pyLower a) := by
    rw [hmap]; exact hpw
  have h3 : ∀ s ∈ u₁ :: us.map (fun v => ' ' :: v),
      ∀ e ∈ ([] : List (List Char)),
      ¬ pyLower (pyStrip s) <:+: pyLower e := by simp
  rw [dedupe_fixpoint _ [] h1 h2 h3, hmap, List.nil_append]

theorem improve_stripped (c : List Char) :
    pyStrip (improveResponseQuality c) = improveResponseQuality c := by
  obtain ⟨hfacts, hpw⟩ := improve_core_facts c
  simp only [improveResponseQuality]
  rcases hu : dedupeSentences (pySplit '.' c) [] with _ | ⟨u₁, us⟩
  · simp [hu, pyJoin, pyStrip, pyRStrip, pyLStrip]
  · rw [hu] at hfacts
    have hu₁ := hfacts u₁ (List.mem_cons_self _ _)
    have hyne : pyJoin ['.', ' '] (u₁ :: us) ≠ [] := pyJoin_ne_nil us hu₁.1
    have hhead : ∀ ch, (pyJoin ['.', ' '] (u₁ :: us)).head? = some ch →
        isPySpace ch = false := by
      intro ch h
      rw [pyJoin_head us u₁ hu₁.1] at h
      rw [← hu₁.2.1] at h
      exact pyStrip_head h
    obtain ⟨w, hwmem, hw2⟩ := pyJoin_getLast us u₁
      (fun v hv => (hfacts v (List.mem_cons_of_mem _ hv)).1)
    split_ifs with hg
    · apply pyStrip_of_ok
      · intro ch h
        rw [head?_append_left _ hyne] at h
        exact hhead ch h
      · intro ch h
        rw [List.getLast?_concat] at h
        cases h
        rfl
    · apply pyStrip_of_ok
      · exact hhead
      · intro ch h
        rw [hw2] at h
        rw [← (hfacts w hwmem).2.1] at h
        exact pyStrip_getLast h

theorem improve_idem (c : List Char) :
    improveResponseQuality (improveResponseQuality c) =
      improveResponseQuality c := by
  obtain ⟨hfacts, hpw⟩ := improve_core_facts c
  rcases hu : dedupeSentences (pySplit '.' c) [] with _ | ⟨u₁, us⟩
  · have e : improveResponseQuality c = [] := by
      simp [improveResponseQuality, hu, pyJoin]
    rw [e]
    simp [improveResponseQuality, pySplit, dedupeSentences, pyStrip,
      pyLStrip, pyRStrip, pyJoin]
  · rw [hu] at hfacts hpw
    have hu₁ := hfacts u₁ (List.mem_cons_self _ _)
    have hyne : pyJoin ['.', ' '] (u₁ :: us) ≠ [] := pyJoin_ne_nil us hu₁.1
    have hdot1 : '.' ∉ u₁ := hu₁.2.2
    have hdots : ∀ v ∈ us, '.' ∉ v :=
      fun v hv => (hfacts v (List.mem_cons_of_mem _ hv)).2.2
    have hsplit : pySplit '.' (pyJoin ['.', ' '] (u₁ :: us)) =
        u₁ :: us.map (fun v => ' ' :: v) := pyJoin_split us u₁ hdot1 hdots
    have hround : dedupeSentences (u₁ :: us.map (fun v => ' ' :: v)) [] =
        u₁ :: us :=
      dedupe_improve_roundtrip u₁ us
        (fun x hx => ⟨(hfacts x hx).1, (hfacts x hx).2.1⟩) hpw
    have hEc : improveResponseQuality c =
        if pyJoin ['.', ' '] (u₁ :: us) ≠ [] ∧
            (pyJoin ['.', ' '] (u₁ :: us)).getLast? ∉
              [some '.', some '!', some '?'] then
          pyJoin ['.', ' '] (u₁ :: us) ++ ['.']
        else pyJoin ['.', ' '] (u₁ :: us) := by
      simp only [improveResponseQuality, hu]
    rw [hEc]
    split_ifs with hg
    · have hsplit2 : pySplit '.' (pyJoin ['.', ' '] (u₁ :: us) ++ ['.']) =
          (u₁ :: us.map (fun v => ' ' :: v)) ++ [[]] := by
        rw [pySplit_append_last, hsplit]
      have hded : dedupeSentences
          ((u₁ :: us.map (fun v => ' ' :: v)) ++ [[]]) [] = u₁ :: us := by
        rw [dedupe_append, hround]
        simp [dedupeSentences, pyStrip, pyRStrip, pyLStrip]
      simp only [improveResponseQuality, hsplit2, hded]
      rw [if_pos hg]
    · simp only [improveResponseQuality, hsplit, hround]
      rw [if_neg hg]

/-- Decomposition of an occurrence inside an append: the occurrence lies
in the left part, lies in the right part, or straddles the boundary, in
which case a nonempty suffix of the left part is a proper prefix of the
pattern and the rest of the pattern is a prefix of the right part. -/
theorem infix_append_cases {p x y : List Char} (h : p <:+: x ++ y) :
    p <:+: x ∨ p <:+: y ∨
    ∃ t, t <:+ x ∧ t ≠ [] ∧ t <+: p ∧ t.length < p.length ∧
      p.drop t.length <+: y := by
  obtain ⟨u, v, huv⟩ := h
  rcases le_or_lt x.length u.length with hle | hlt
  · have hu : u <+: x ++ y := ⟨p ++ v, by simpa [List.append_assoc] using huv⟩
    have hux : x <+: u :=
      List.prefix_of_prefix_length_le (List.prefix_append x y) hu hle
    obtain ⟨u', rfl⟩ := hux
    right; left
    refine ⟨u', v, ?_⟩
    have h2 : x ++ (u' ++ p ++ v) = x ++ y := by
      simpa [List.append_assoc] using huv
    exact List.append_cancel_left h2
  · have hu : u <+: x ++ y := ⟨p ++ v, by simpa [List.append_assoc] using huv⟩
    have hux : u <+: x :=
      List.prefix_of_prefix_length_le hu (List.prefix_append x y) (le_of_lt hlt)
    have hxt : x = u ++ x.drop u.length := by
      conv_lhs => rw [← List.take_append_drop u.length x]
      rw [← List.prefix_iff_eq_take.mp hux]
    have htne : x.drop u.length ≠ [] := by
      intro e
      have := List.drop_eq_nil_iff_le.mp e
      omega
    have hty : (x.drop u.length) ++ y = p ++ v := by
      rw [hxt] at huv
      have h2 : u ++ (p ++ v) = u ++ (x.drop u.length ++ y) := by
        simpa [List.append_assoc] using huv
      exact (List.append_cancel_left h2).symm
    rcases le_or_lt p.length (x.drop u.length).length with hple | hplt
    · left
      have hpt : p <+: x.drop u.length :=
        List.prefix_of_prefix_length_le ⟨v, hty.symm⟩
          (List.prefix_append _ y) hple
      exact hpt.isInfix.trans
        (by conv_rhs => rw [hxt]
            exact (List.suffix_append u _).isInfix)
    · right; right
      have htp : (x.drop u.length) <+: p :=
        List.prefix_of_prefix_length_le (List.prefix_append _ y)
          ⟨v, hty.symm⟩ (le_of_lt hplt)
      refine ⟨x.drop u.length, ?_, htne, htp, hplt, ?_⟩
      · conv_rhs => rw [hxt]
        exact List.suffix_append u _
      · have h3 : ((x.drop u.length) ++ y).drop (x.drop u.length).length =
            (p ++ v).drop (x.drop u.length).length := by rw [hty]
        rw [List.drop_left] at h3
        rw [List.drop_append_of_le_length (le_of_lt hplt)] at h3
        exact ⟨v, h3.symm⟩

/-- An occurrence in a cons either starts at the head or lies in the tail. -/
theorem infix_cons_cases {p : List Char} {c : Char} {o : List Char}
    (h : p <:+: c :: o) : p <+: c :: o ∨ p <:+: o := by
  obtain ⟨u, v, huv⟩ := h
  cases u with
  | nil => exact Or.inl ⟨v, by simpa using huv⟩
  | cons d u' =>
    right
    have h2 : d :: (u' ++ p ++ v) = c :: o := by simpa using huv
    injection h2 with _ h3
    exact ⟨u', v, h3⟩

/-- Python `str.replace` leaves a string without any occurrence of the
pattern unchanged. -/
theorem pyReplace_no_occ (pat rep : List Char) :
    ∀ s : List Char, ¬ pat <:+: s → pyReplace pat rep s = s := by
  intro s
  induction s with
  | nil => intro _; simp [pyReplace]
  | cons c cs ih =>
    intro h
    have hnm : ¬ (pat ≠ [] ∧ pat <+: (c :: cs)) := by
      rintro ⟨_, h2⟩
      exact h h2.isInfix
    simp only [pyReplace, dif_neg hnm]
    rw [ih (fun hx => h (hx.trans (List.suffix_cons c cs).isInfix))]

/-- Core lemma on left-to-right maximal-munch replacement, by strong
induction on the scanned string: under the four no-straddle side
conditions relating a watched pattern `p` to the replacement text `r`
(`p` does not occur in `r`, no nonempty suffix of `r` is a proper prefix
of `p`, no nonempty proper suffix of `p` is a prefix of `r`, and `r` does
not occur in `p`), (1) every nonempty suffix of `p` that prefixes the
output already prefixes the input, and (2) if `p` is the replaced pattern
itself or does not occur in the input, it does not occur in the output. -/
theorem pyReplace_clean_aux (p q r : List Char) (hp : p ≠ []) (hq : q ≠ [])
    (hD1 : ¬ p <:+: r)
    (hD2 : ∀ t ∈ r.tails, t ≠ [] → t.length < p.length → ¬ t <+: p)
    (hD3 : ∀ b ∈ p.tails, b ≠ [] → b.length < p.length → ¬ b <+: r)
    (hD4 : ¬ r <:+: p) :
    ∀ (n : Nat) (s : List Char), s.length ≤ n →
      (∀ w ∈ p.tails, w ≠ [] → w <+: pyReplace q r s → w <+: s) ∧
      ((p = q ∨ ¬ p <:+: s) → ¬ p <:+: pyReplace q r s) := by
  intro n
  induction n with
  | zero =>
    intro s hs
    have hnil : s = [] := List.length_eq_zero.mp (Nat.le_zero.mp hs)
    subst hnil
    constructor
    · intro w _ hwne hpre
      rw [show pyReplace q r [] = [] by simp [pyReplace]] at hpre
      exact absurd (List.prefix_nil.mp hpre) hwne
    · intro _ hinf
      rw [show pyReplace q r [] = [] by simp [pyReplace]] at hinf
      exact hp (List.eq_nil_of_infix_nil hinf)
  | succ n ih =>
    intro s hs
    cases s with
    | nil =>
      constructor
      · intro w _ hwne hpre
        rw [show pyReplace q r [] = [] by simp [pyReplace]] at hpre
        exact absurd (List.prefix_nil.mp hpre) hwne
      · intro _ hinf
        rw [show pyReplace q r [] = [] by simp [pyReplace]] at hinf
        exact hp (List.eq_nil_of_infix_nil hinf)
    | cons c cs =>
      have hcs : cs.length ≤ n := by
        simpa using Nat.le_of_succ_le_succ hs
      constructor
      · intro w hw hwne hpre
        have hwsuf : w <:+ p := (List.mem_tails w p).mp hw
        by_cases hm : q ≠ [] ∧ q <+: (c :: cs)
        · rw [show pyReplace q r (c :: cs) =
              r ++ pyReplace q r ((c :: cs).drop q.length) by
                simp only [pyReplace, dif_pos hm]] at hpre
          rcases le_or_lt w.length r.length with hlen | hlen
          · have hwr : w <+: r :=
              List.prefix_of_prefix_length_le hpre (List.prefix_append r _) hlen
          -- distinguish proper suffix from whole pattern
            by_cases hwp : w.length < p.length
            · exact absurd hwr (hD3 w hw hwne hwp)
            · have hwe : w = p := by
                have h1 : w.length ≤ p.length := hwsuf.length_le
                exact List.Sublist.eq_of_length hwsuf.sublist (by omega)
              subst hwe
              exact absurd hwr.isInfix hD1
          · have hrw : r <+: w :=
              List.prefix_of_prefix_length_le (List.prefix_append r _) hpre
                (le_of_lt hlen)
            exact absurd (hrw.isInfix.trans hwsuf.isInfix) hD4
        · rw [show pyReplace q r (c :: cs) = c :: pyReplace q r cs by
              simp only [pyReplace, dif_neg hm]] at hpre
          cases w with
          | nil => exact absurd rfl hwne
          | cons d w' =>
            obtain ⟨hd, hw'⟩ := List.cons_prefix_cons.mp hpre
            subst hd
            by_cases hw'ne : w' = []
            · subst hw'ne
              exact List.cons_prefix_cons.mpr ⟨rfl, List.nil_prefix⟩
            · have hw'tl : w' ∈ p.tails := by
                rw [List.mem_tails]
                obtain ⟨u, hu⟩ := hwsuf
                exact ⟨u ++ [d], by simpa [List.append_assoc] using hu⟩
              have := (ih cs hcs).1 w' hw'tl hw'ne hw'
              exact List.cons_prefix_cons.mpr ⟨rfl, this⟩
      · intro hor hinf
        by_cases hm : q ≠ [] ∧ q <+: (c :: cs)
        · rw [show pyReplace q r (c :: cs) =
              r ++ pyReplace q r ((c :: cs).drop q.length) by
                simp only [pyReplace, dif_pos hm]] at hinf
          rcases infix_append_cases hinf with h | h | ⟨t, ht, htne, htp, htlen, _⟩
          · exact hD1 h
          · have hqpos : 1 ≤ q.length := by
              cases q with
              | nil => exact absurd rfl hq
              | cons _ _ => simp
            have hdlen : ((c :: cs).drop q.length).length ≤ n := by
              rw [List.length_drop]
              simp only [List.length_cons]
              omega
            have hor' : p = q ∨ ¬ p <:+: (c :: cs).drop q.length := by
              rcases hor with h0 | h0
              · exact Or.inl h0
              · exact Or.inr fun hx =>
                  h0 (hx.trans (List.drop_suffix _ _).isInfix)
            exact (ih _ hdlen).2 hor' h
          · exact hD2 t ((List.mem_tails t r).mpr ht) htne htlen htp
        · rw [show pyReplace q r (c :: cs) = c :: pyReplace q r cs by
              simp only [pyReplace, dif_neg hm]] at hinf
          have hor' : p = q ∨ ¬ p <:+: cs := by
            rcases hor with h0 | h0
            · exact Or.inl h0
            · exact Or.inr fun hx => h0 (hx.trans (List.suffix_cons c cs).isInfix)
          rcases infix_cons_cases hinf with h | h
          · obtain ⟨d, p', rfl⟩ := List.exists_cons_of_ne_nil hp
            obtain ⟨hd, hp'⟩ := List.cons_prefix_cons.mp h
            subst hd
            by_cases hp'ne : p' = []
            · subst hp'ne
              have hfull : [d] <+: d :: cs := List.cons_prefix_cons.mpr ⟨rfl, List.nil_prefix⟩
              rcases hor with h0 | h0
              · exact hm ⟨h0 ▸ hp, h0 ▸ hfull⟩
              · exact h0 hfull.isInfix
            · have hp'tl : p' ∈ (d :: p').tails := by
                rw [List.mem_tails]
                exact ⟨[d], rfl⟩
              have hpre' := (ih cs hcs).1 p' hp'tl hp'ne hp'
              have hfull : (d :: p') <+: d :: cs :=
                List.cons_prefix_cons.mpr ⟨rfl, hpre'⟩
              rcases hor with h0 | h0
              · exact hm ⟨h0 ▸ hp, h0 ▸ hfull⟩
              · exact h0 hfull.isInfix
          · exact (ih cs hcs).2 hor' h

/-- Specialisation of the core replacement lemma: the watched pattern is
absent from `pyReplace q r s` whenever it is the replaced pattern itself
or was already absent from `s`. -/
theorem pyReplace_clean (p q r : List Char) (hp : p ≠ []) (hq : q ≠ [])
    (hD1 : ¬ p <:+: r)
    (hD2 : ∀ t ∈ r.tails, t ≠ [] → t.length < p.length → ¬ t <+: p)
    (hD3 : ∀ b ∈ p.tails, b ≠ [] → b.length < p.length → ¬ b <+: r)
    (hD4 : ¬ r <:+: p) (s : List Char)
    (h : p = q ∨ ¬ p <:+: s) : ¬ p <:+: pyReplace q r s :=
  (pyReplace_clean_aux p q r hp hq hD1 hD2 hD3 hD4 s.length s le_rfl).2 h

/-- The first fragment produced by `pySplit` is a prefix of the input. -/
theorem pySplit_head_prefixOf (sep : Char) : ∀ (l h : List Char)
    (t : List (List Char)), pySplit sep l = h :: t → h <+: l := by
  intro l
  induction l with
  | nil =>
    intro h t he
    rw [show pySplit sep [] = [[]] from rfl] at he
    injection he with h1 _
    exact h1 ▸ List.nil_prefix
  | cons c cs ih =>
    intro h t he
    by_cases hc : c = sep
    · subst hc
      rw [pySplit_cons_eq] at he
      injection he with h1 _
      exact h1 ▸ List.nil_prefix
    · rcases hs : pySplit sep cs with _ | ⟨h', t'⟩
      · exact absurd hs (pySplit_ne_nil sep cs)
      · rw [pySplit_cons_ne hc hs] at he
        injection he with h1 _
        exact h1 ▸ List.cons_prefix_cons.mpr ⟨rfl, ih h' t' hs⟩

/-- Every fragment produced by `pySplit` is a contiguous substring of the
input. -/
theorem pySplit_fragment_infixOf (sep : Char) : ∀ (l f : List Char),
    f ∈ pySplit sep l → f <:+: l := by
  intro l
  induction l with
  | nil =>
    intro f hf
    rw [show pySplit sep [] = [[]] from rfl] at hf
    simp only [List.mem_singleton] at hf
    exact hf ▸ List.nil_infix
  | cons c cs ih =>
    intro f hf
    by_cases hc : c = sep
    · subst hc
      rw [pySplit_cons_eq] at hf
      rcases List.mem_cons.mp hf with rfl | hf
      · exact List.nil_infix
      · exact (ih f hf).trans (List.suffix_cons _ _).isInfix
    · rcases hs : pySplit sep cs with _ | ⟨h', t'⟩
      · exact absurd hs (pySplit_ne_nil sep cs)
      · rw [pySplit_cons_ne hc hs] at hf
        rcases List.mem_cons.mp hf with rfl | hf
        · exact (List.cons_prefix_cons.mpr
            ⟨rfl, pySplit_head_prefixOf sep cs h' t' hs⟩).isInfix
        · have hmem : f ∈ pySplit sep cs := by
            rw [hs]; exact List.mem_cons_of_mem _ hf
          exact (ih f hmem).trans (List.suffix_cons c cs).isInfix

/-- A pattern containing neither a period nor a space cannot occur in a
`". "`-join of strings it occurs in none of. -/
theorem pyJoin_no_infixOf (p : List Char) (hp : p ≠ []) (hdot : '.' ∉ p)
    (hsp : ' ' ∉ p) : ∀ us : List (List Char), (∀ x ∈ us, ¬ p <:+: x) →
    ¬ p <:+: pyJoin ['.', ' '] us := by
  intro us
  induction us with
  | nil =>
    intro _ h
    rw [show pyJoin ['.', ' '] [] = [] from rfl] at h
    exact hp (List.eq_nil_of_infix_nil h)
  | cons x xs ih =>
    intro hall h
    cases xs with
    | nil => exact hall x (List.mem_cons_self x []) h
    | cons v vs =>
      rw [pyJoin_cons_cons] at h
      have he : x ++ ['.', ' '] ++ pyJoin ['.', ' '] (v :: vs) =
          x ++ ('.' :: ' ' :: pyJoin ['.', ' '] (v :: vs)) := by simp
      rw [he] at h
      rcases infix_append_cases h with h0 | h0 | ⟨t, _, _, _, htlen, hdrop⟩
      · exact hall x (List.mem_cons_self x _) h0
      · rcases infix_cons_cases h0 with h1 | h1
        · obtain ⟨d, p', rfl⟩ := List.exists_cons_of_ne_nil hp
          obtain ⟨hd, _⟩ := List.cons_prefix_cons.mp h1
          exact hdot (by rw [← hd]; exact List.mem_cons_self d p')
        · rcases infix_cons_cases h1 with h2 | h2
          · obtain ⟨d, p', rfl⟩ := List.exists_cons_of_ne_nil hp
            obtain ⟨hd, _⟩ := List.cons_prefix_cons.mp h2
            exact hsp (by rw [← hd]; exact List.mem_cons_self d p')
          · exact ih (fun y hy => hall y (List.mem_cons_of_mem _ hy)) h2
      · have hne2 : p.drop t.length ≠ [] := by
          rw [Ne, List.drop_eq_nil_iff_le]
          omega
        obtain ⟨d, w', hw⟩ := List.exists_cons_of_ne_nil hne2
        rw [hw] at hdrop
        obtain ⟨hd, _⟩ := List.cons_prefix_cons.mp hdrop
        have hdm : d ∈ p :=
          (List.drop_suffix t.length p).subset (hw ▸ List.mem_cons_self d w')
        exact hdot (by rw [← hd]; exact hdm)

/-- The sentence-improvement pass cannot create an occurrence of a
pattern that contains neither a period nor a space: its output is built
from substrings of its input joined with `". "`. -/
theorem improve_no_infixOf (p : List Char) (hp : p ≠ []) (hdot : '.' ∉ p)
    (hsp : ' ' ∉ p) (c : List Char) (hc : ¬ p <:+: c) :
    ¬ p <:+: improveResponseQuality c := by
  obtain ⟨m1, _, _⟩ := dedupe_sound (pySplit '.' c) [] (by simp) (by simp)
  have helem : ∀ x ∈ dedupeSentences (pySplit '.' c) [], ¬ p <:+: x := by
    intro x hx hpx
    rcases m1 x hx with h0 | ⟨s, hs, rfl⟩
    · simp at h0
    · exact hc (hpx.trans ((pyStrip_infixOf s).trans
        (pySplit_fragment_infixOf '.' c s hs)))
  have hjoin : ¬ p <:+: pyJoin ['.', ' '] (dedupeSentences (pySplit '.' c) []) :=
    pyJoin_no_infixOf p hp hdot hsp _ helem
  simp only [improveResponseQuality]
  split_ifs with hg
  · intro hinf
    rcases infix_append_cases hinf with h0 | h0 | ⟨t, _, _, _, htlen, hdrop⟩
    · exact hjoin h0
    · obtain ⟨d, p', rfl⟩ := List.exists_cons_of_ne_nil hp
      have hsub : d ∈ ['.'] := h0.subset (List.mem_cons_self d p')
      simp only [List.mem_singleton] at hsub
      exact hdot (by rw [← hsub]; exact List.mem_cons_self d p')
    · have hne2 : p.drop t.length ≠ [] := by
        rw [Ne, List.drop_eq_nil_iff_le]
        omega
      obtain ⟨d, w', hw⟩ := List.exists_cons_of_ne_nil hne2
      rw [hw] at hdrop
      obtain ⟨hd, _⟩ := List.cons_prefix_cons.mp hdrop
      have hdm : d ∈ p :=
        (List.drop_suffix t.length p).subset (hw ▸ List.mem_cons_self d w')
      exact hdot (by rw [← hd]; exact hdm)
  · exact hjoin

/-- After `_ensure_professional_tone` none of the five casual patterns
occurs: each replacement removes its own pattern and, by the no-straddle
side conditions (checked by `decide` for all fifteen pattern/replacement
instances), no replacement can recreate an earlier one. -/
theorem prof_no_patterns (s : List Char) :
    (¬ "yeah".toList <:+: ensureProfessionalTone s) ∧
    (¬ "gonna".toList <:+: ensureProfessionalTone s) ∧
    (¬ "wanna".toList <:+: ensureProfessionalTone s) ∧
    (¬ "kinda".toList <:+: ensureProfessionalTone s) ∧
    (¬ "sorta".toList <:+: ensureProfessionalTone s) := by
  have he : ensureProfessionalTone s =
      pyReplace "sorta".toList "somewhat".toList
        (pyReplace "kinda".toList "somewhat".toList
          (pyReplace "wanna".toList "want to".toList
            (pyReplace "gonna".toList "going to".toList
              (pyReplace "yeah".toList "yes".toList s)))) := rfl
  rw [he]
  have y1 : ¬ "yeah".toList <:+: pyReplace "yeah".toList "yes".toList s :=
    pyReplace_clean _ _ _ (by decide) (by decide) (by decide) (by decide)
      (by decide) (by decide) s (Or.inl rfl)
  have y2 := pyReplace_clean "yeah".toList "gonna".toList "going to".toList
    (by decide) (by decide) (by decide) (by decide) (by decide) (by decide)
    _ (Or.inr y1)
  have y3 := pyReplace_clean "yeah".toList "wanna".toList "want to".toList
    (by decide) (by decide) (by decide) (by decide) (by decide) (by decide)
    _ (Or.inr y2)
  have y4 := pyReplace_clean "yeah".toList "kinda".toList "somewhat".toList
    (by decide) (by decide) (by decide) (by decide) (by decide) (by decide)
    _ (Or.inr y3)
  have y5 := pyReplace_clean "yeah".toList "sorta".toList "somewhat".toList
    (by decide) (by decide) (by decide) (by decide) (by decide) (by decide)
    _ (Or.inr y4)
  have g2 : ¬ "gonna".toList <:+:
      pyReplace "gonna".toList "going to".toList
        (pyReplace "yeah".toList "yes".toList s) :=
    pyReplace_clean _ _ _ (by decide) (by decide) (by decide) (by decide)
      (by decide) (by decide) _ (Or.inl rfl)
  have g3 := pyReplace_clean "gonna".toList "wanna".toList "want to".toList
    (by decide) (by decide) (by decide) (by decide) (by decide) (by decide)
    _ (Or.inr g2)
  have g4 := pyReplace_clean "gonna".toList "kinda".toList "somewhat".toList
    (by decide) (by decide) (by decide) (by decide) (by decide) (by decide)
    _ (Or.inr g3)
  have g5 := pyReplace_clean "gonna".toList "sorta".toList "somewhat".toList
    (by decide) (by decide) (by decide) (by decide) (by decide) (by decide)
    _ (Or.inr g4)
  have w3 : ¬ "wanna".toList <:+:
      pyReplace "wanna".toList "want to".toList
        (pyReplace "gonna".toList "going to".toList
          (pyReplace "yeah".toList "yes".toList s)) :=
    pyReplace_clean _ _ _ (by decide) (by decide) (by decide) (by decide)
      (by decide) (by decide) _ (Or.inl rfl)
  have w4 := pyReplace_clean "wanna".toList "kinda".toList "somewhat".toList
    (by decide) (by decide) (by decide) (by decide) (by decide) (by decide)
    _ (Or.inr w3)
  have w5 := pyReplace_clean "wanna".toList "sorta".toList "somewhat".toList
    (by decide) (by decide) (by decide) (by decide) (by decide) (by decide)
    _ (Or.inr w4)
  have k4 : ¬ "kinda".toList <:+:
      pyReplace "kinda".toList "somewhat".toList
        (pyReplace "wanna".toList "want to".toList
          (pyReplace "gonna".toList "going to".toList
            (pyReplace "yeah".toList "yes".toList s))) :=
    pyReplace_clean _ _ _ (by decide) (by decide) (by decide) (by decide)
      (by decide) (by decide) _ (Or.inl rfl)
  have k5 := pyReplace_clean "kinda".toList "sorta".toList "somewhat".toList
    (by decide) (by decide) (by decide) (by decide) (by decide) (by decide)
    _ (Or.inr k4)
  have s5 : ¬ "sorta".toList <:+:
      pyReplace "sorta".toList "somewhat".toList
        (pyReplace "kinda".toList "somewhat".toList
          (pyReplace "wanna".toList "want to".toList
            (pyReplace "gonna".toList "going to".toList
              (pyReplace "yeah".toList "yes".toList s)))) :=
    pyReplace_clean _ _ _ (by decide) (by decide) (by decide) (by decide)
      (by decide) (by decide) _ (Or.inl rfl)
  exact ⟨y5, g5, w5, k5, s5⟩

/-- On a string free of all five casual patterns,
`_ensure_professional_tone` is the identity. -/
theorem prof_id_of_clean (s : List Char)
    (h1 : ¬ "yeah".toList <:+: s) (h2 : ¬ "gonna".toList <:+: s)
    (h3 : ¬ "wanna".toList <:+: s) (h4 : ¬ "kinda".toList <:+: s)
    (h5 : ¬ "sorta".toList <:+: s) : ensureProfessionalTone s = s := by
  simp only [ensureProfessionalTone]
  rw [pyReplace_no_occ _ _ s h1, pyReplace_no_occ _ _ s h2,
    pyReplace_no_occ _ _ s h3, pyReplace_no_occ _ _ s h4,
    pyReplace_no_occ _ _ s h5]

theorem postProcess_untouched_eq (style : ConversationStyle)
    (hstyle : style = ConversationStyle.analytical ∨
      style = ConversationStyle.casual ∨ style = ConversationStyle.helpful)
    (x : List Char) (rnd : Nat) :
    postProcessResponse x style rnd =
      if x = [] then x
      else improveResponseQuality
        (if "You are".toList <+: pyStrip x then dropFirstLine (pyStrip x)
         else pyStrip x) := by
  rcases hstyle with rfl | rfl | rfl <;> rfl

/-- Idempotence of `post_process` for the styles whose style step is the
identity (analytical, casual, helpful), on inputs whose post-processed
output does not begin with "You are"; the professional style is folded in
by `postProcess_idempotent_styles` below. -/
theorem postProcess_idempotent_untouched (style : ConversationStyle)
    (hstyle : style = ConversationStyle.analytical ∨
      style = ConversationStyle.casual ∨ style = ConversationStyle.helpful)
    (x : List Char) (rnd rnd₂ : Nat)
    (hya : ¬ "You are".toList <+: postProcessResponse x style rnd) :
    postProcessResponse (postProcessResponse x style rnd) style rnd₂ =
      postProcessResponse x style rnd := by
  rw [postProcess_untouched_eq style hstyle x rnd] at hya ⊢
  rw [postProcess_untouched_eq style hstyle _ rnd₂]
  by_cases hx : x = []
  · subst hx
    simp
  · rw [if_neg hx] at hya ⊢
    set z := improveResponseQuality
      (if "You are".toList <+: pyStrip x then dropFirstLine (pyStrip x)
       else pyStrip x) with hz
    by_cases hzn : z = []
    · rw [if_pos hzn]
    · rw [if_neg hzn]
      have hstrip : pyStrip z = z := by
        rw [hz]
        exact improve_stripped _
      rw [hstrip, if_neg hya, hz]
      exact improve_idem _

/-- Unfolding of `_post_process_response` for the professional style. -/
theorem postProcess_professional_eq (x : List Char) (rnd : Nat) :
    postProcessResponse x ConversationStyle.professional rnd =
      if x = [] then x
      else improveResponseQuality (ensureProfessionalTone
        (if "You are".toList <+: pyStrip x then dropFirstLine (pyStrip x)
         else pyStrip x)) := rfl

/-- **C5** amended — for every style whose touch cannot re-fire
(professional, analytical, casual, helpful), `post_process` is idempotent
on every input whose post-processed output does not begin with "You are":
`post_process(post_process(x, s), s) = post_process(x, s)` (for any
random draws).  For the professional style the casual-word replacements
can never fire on the first pass's output: no replacement text contains
or can straddle-create a casual pattern, and the sentence dedup/join step
joins substrings of the replaced text with ". ", so it cannot create one
either.  The claim is not true in general: an output that itself begins
with "You are" is stripped again by the second pass (see the
counterexample), and the friendly/creative touches can fire again on a
second pass. -/
theorem postProcess_idempotent_styles (style : ConversationStyle)
    (hstyle : style = ConversationStyle.professional ∨
      style = ConversationStyle.analytical ∨
      style = ConversationStyle.casual ∨ style = ConversationStyle.helpful)
    (x : List Char) (rnd rnd₂ : Nat)
    (hya : ¬ "You are".toList <+: postProcessResponse x style rnd) :
    postProcessResponse (postProcessResponse x style rnd) style rnd₂ =
      postProcessResponse x style rnd := by
  rcases hstyle with rfl | hstyle
  · rw [postProcess_professional_eq x rnd] at hya ⊢
    rw [postProcess_professional_eq _ rnd₂]
    by_cases hx : x = []
    · subst hx
      simp
    · rw [if_neg hx] at hya ⊢
      set w := (if "You are".toList <+: pyStrip x then dropFirstLine (pyStrip x)
        else pyStrip x) with hw
      set z := improveResponseQuality (ensureProfessionalTone w) with hz
      by_cases hzn : z = []
      · rw [if_pos hzn]
      · rw [if_neg hzn]
        have hstrip : pyStrip z = z := by
          rw [hz]
          exact improve_stripped _
        rw [hstrip, if_neg hya]
        have hpats := prof_no_patterns w
        have h1 : ¬ "yeah".toList <:+: z := by
          rw [hz]
          exact improve_no_infixOf _ (by decide) (by decide) (by decide) _ hpats.1
        have h2 : ¬ "gonna".toList <:+: z := by
          rw [hz]
          exact improve_no_infixOf _ (by decide) (by decide) (by decide) _ hpats.2.1
        have h3 : ¬ "wanna".toList <:+: z := by
          rw [hz]
          exact improve_no_infixOf _ (by decide) (by decide) (by decide) _
            hpats.2.2.1
        have h4 : ¬ "kinda".toList <:+: z := by
          rw [hz]
          exact improve_no_infixOf _ (by decide) (by decide) (by decide) _
            hpats.2.2.2.1
        have h5 : ¬ "sorta".toList <:+: z := by
          rw [hz]
          exact improve_no_infixOf _ (by decide) (by decide) (by decide) _
            hpats.2.2.2.2
        rw [prof_id_of_clean z h1 h2 h3 h4 h5, hz]
        exact improve_idem _
  · exact postProcess_idempotent_untouched style hstyle x rnd rnd₂ hya

/-- **C5** counterexample — `post_process` is *not* idempotent: on the
input `"You are X\nYou are cool."` (analytical style) the first pass
strips the leaked-prompt first line and returns `"You are cool."`; a
second pass sees that output itself start with "You are", strips it again
and returns the empty string. -/
theorem postProcess_not_idempotent_cex :
    postProcessResponse (postProcessResponse "You are X\nYou are cool.".toList
        ConversationStyle.analytical 0) ConversationStyle.analytical 0 ≠
      postProcessResponse "You are X\nYou are cool.".toList
        ConversationStyle.analytical 0 := by decide

/-- Witness for the amended C5 at a concrete input: post-processing a
two-sentence string with the analytical style is stable under a second
pass. -/
theorem postProcess_idempotent_styles_witness :
    postProcessResponse (postProcessResponse "Hello there. How are you".toList
        ConversationStyle.analytical 0) ConversationStyle.analytical 0 =
      postProcessResponse "Hello there. How are you".toList
        ConversationStyle.analytical 0 :=
  postProcess_idempotent_styles ConversationStyle.analytical
    (Or.inr (Or.inl rfl)) "Hello there. How are you".toList 0 0 (by decide)

end AIChat
